import Mathlib

/-!
Verification development for the spec-driven development core of the
Claude-Conductor repository: the markdown spec parser (src/specs/parser.py),
the non-throwing validator (src/specs/validator.py), the document model and
renderer (src/specs/contracts.py), and the prompt builder / phase runner
(src/specs/prompts.py, src/specs/runner.py).

Strings are modelled as lists of characters.  The Python regular
expressions used by the source are small and, on each of them, greedy and
lazy repetition interact with the neighbouring literals in a way that
admits a deterministic derivation; each matcher below implements that
derived deterministic form of the exact pattern named in its comment.
Python character classes \s and \w are modelled at their ASCII meaning.
-/

/-- Model of the Python regex class \s (ASCII part). -/
def isWS (c : Char) : Bool :=
  c = ' ' || c = '\t' || c = '\n' || c = '\r' || c = '\x0b' || c = '\x0c'

/-- Model of the Python regex class \w (ASCII part): alphanumeric or underscore. -/
def isWordC (c : Char) : Bool :=
  c.isAlphanum || c = '_'

/-- Remove trailing whitespace, keeping the list a prefix of the input. -/
def dropTrailingWS : List Char → List Char
  | [] => []
  | c :: r =>
    match dropTrailingWS r with
    | [] => if isWS c then [] else [c]
    | r1 => c :: r1

/-- Model of Python str.strip(): remove leading and trailing whitespace. -/
def trimL (l : List Char) : List Char :=
  dropTrailingWS (l.dropWhile isWS)

/-- Model of Python str.split(chr(10)): the empty string yields one empty line. -/
def splitLinesL : List Char → List (List Char)
  | [] => [[]]
  | '\n' :: r => [] :: splitLinesL r
  | c :: r =>
    match splitLinesL r with
    | [] => [[c]]
    | h :: t => (c :: h) :: t

/-- Does the list start with the given pattern. -/
def startsWithL : List Char → List Char → Bool
  | _, [] => true
  | [], _ :: _ => false
  | c :: r, p :: q => c = p && startsWithL r q

/-- Substring test: does pat occur contiguously inside hay. -/
def containsSub : List Char → List Char → Bool
  | hay, pat =>
    match hay with
    | [] => pat.isEmpty
    | _ :: r => startsWithL hay pat || containsSub r pat

/-- Strip a literal pattern from the front, returning the remainder. -/
def stripLit : List Char → List Char → Option (List Char)
  | l, [] => some l
  | [], _ :: _ => none
  | c :: r, p :: q => if c = p then stripLit r q else none

/-- Model of Python str.upper() (ASCII part). -/
def upperL (l : List Char) : List Char := l.map Char.toUpper

/-- Model of Python str.lower() (ASCII part). -/
def lowerL (l : List Char) : List Char := l.map Char.toLower

/-- Model of Python str.partition at the first colon: parts before and after it. -/
def splitFirstColon : List Char → (List Char × List Char)
  | [] => ([], [])
  | ':' :: r => ([], r)
  | c :: r =>
    let p := splitFirstColon r
    (c :: p.1, p.2)

/-- Boolean success test for Except values. -/
def isOkE {ε α : Type} : Except ε α → Bool
  | .ok _ => true
  | .error _ => false

/-- Split a list at its last element satisfying p: l = a ++ x :: b with p x. -/
def splitLastP (p : Char → Bool) : List Char → Option (List Char × Char × List Char)
  | [] => none
  | c :: r =>
    match splitLastP p r with
    | some (a, x, b) => some (c :: a, x, b)
    | none => if p c then some ([], c, r) else none

/-- Split a list at its last newline. -/
def splitLastNl (l : List Char) : Option (List Char × List Char) :=
  (splitLastP (fun c => c = '\n') l).map (fun t => (t.1, t.2.2))

/-- Single quote character, used to build the error messages of the source. -/
def squote : String := String.mk [Char.ofNat 39]

/-! ## Data model (src/specs/contracts.py) -/

/-- SpecTier enum: classification of spec complexity and scope. -/
inductive SpecTier where
  | HOTFIX
  | FEATURE
  | SYSTEM
deriving DecidableEq, Repr

/-- Python enum .value strings of SpecTier. -/
def SpecTier.value : SpecTier → String
  | .HOTFIX => "hotfix"
  | .FEATURE => "feature"
  | .SYSTEM => "system"

/-- Python enum .name strings of SpecTier. -/
def SpecTier.tname : SpecTier → String
  | .HOTFIX => "HOTFIX"
  | .FEATURE => "FEATURE"
  | .SYSTEM => "SYSTEM"

/-- Model of the Python enum lookup SpecTier[s]: exact member-name match. -/
def tierFromName (s : List Char) : Option SpecTier :=
  if s = "HOTFIX".data then some .HOTFIX
  else if s = "FEATURE".data then some .FEATURE
  else if s = "SYSTEM".data then some .SYSTEM
  else none

/-- ValidationConfig: commands validating an implementation against a spec. -/
structure ValidationConfig where
  tests : String
  typecheck : Option String := none
  lint : Option String := none
  success_criteria : List (String × Bool) := [("all_tests_pass", true)]
deriving DecidableEq, Repr

/-- SpecDocument: complete specification document for a feature or system.
The Python dict for edge_cases is modelled as an insertion-ordered
association list with in-place overwrite on key collision. -/
structure SpecDocument where
  name : String
  description : String
  tier : SpecTier
  interface : List String
  must_do : List String
  must_not_do : List String
  edge_cases : List (String × String)
  preconditions : List String
  postconditions : List String
  invariants : List String
  validation : ValidationConfig
  target_path : Option String := none
deriving DecidableEq, Repr

/-- SpecValidationResult: result of validating a spec document. -/
structure SpecValidationResult where
  is_valid : Bool
  spec : Option SpecDocument
  errors : List String
deriving DecidableEq, Repr

/-- PhaseRequest: request for a single phase execution. -/
structure PhaseRequest where
  phase : String
  prompt : String
  spec : SpecDocument
  test_path : Option String
deriving DecidableEq, Repr

/-- Python dict assignment d[k] = v: overwrite in place, else append. -/
def dictInsert (d : List (String × String)) (k v : String) : List (String × String) :=
  if d.any (fun p => p.1 = k) then
    d.map (fun p => if p.1 = k then (k, v) else p)
  else d ++ [(k, v)]

/-! ## Header matcher (regex r"##\s*Spec:\s*(\w+)\s*\[(\w+)\]")

In this pattern every repetition is over a character class disjoint from
the literal that follows it, so greedy matching never backtracks and the
match at a given start position is computed by maximal munch. -/

/-- Attempt the header pattern anchored at the current position.
Returns (name, tier, remainder after the match). -/
def matchHeaderAt (l : List Char) : Option (List Char × List Char × List Char) :=
  match l with
  | '#' :: '#' :: r0 =>
    let r1 := r0.dropWhile isWS
    match stripLit r1 "Spec:".data with
    | none => none
    | some r2 =>
      let r3 := r2.dropWhile isWS
      let name := r3.takeWhile isWordC
      let r4 := r3.dropWhile isWordC
      if name.isEmpty then none
      else
        match r4.dropWhile isWS with
        | '[' :: r5 =>
          let tier := r5.takeWhile isWordC
          let r6 := r5.dropWhile isWordC
          if tier.isEmpty then none
          else
            match r6 with
            | ']' :: rest => some (name, tier, rest)
            | _ => none
        | _ => none
  | _ => none

/-- Model of Pattern.search: leftmost successful start position. -/
def findHeader : List Char → Option (List Char × List Char × List Char)
  | [] => none
  | c :: r =>
    match matchHeaderAt (c :: r) with
    | some x => some x
    | none => findHeader r

/-! ## Section matcher (regex r"^###\s+(.+)$" with MULTILINE)

Derived deterministic behaviour at a line-start position: after the
literal ### there must be at least one whitespace character; if a
non-whitespace character follows the maximal whitespace run, the group is
the maximal newline-free run from it; otherwise the run reaches the end of
the input and backtracking of the greedy \s+ yields the last
non-newline whitespace character of the run (excluding its first
character) as a one-character group. -/

/-- Attempt the section-header pattern anchored at a line start.
Returns (group 1, total number of characters consumed by the match). -/
def matchSectionAt (l : List Char) : Option (List Char × Nat) :=
  match l with
  | '#' :: '#' :: '#' :: r =>
    let w := r.takeWhile isWS
    let q := r.dropWhile isWS
    if w.isEmpty then none
    else
      match q with
      | [] =>
        match w with
        | [] => none
        | _ :: wt =>
          match splitLastP (fun c => c ≠ '\n') wt with
          | some (a, c, _) => some ([c], 3 + 1 + a.length + 1)
          | none => none
      | _ =>
        let g := q.takeWhile (fun c => c ≠ '\n')
        some (g, 3 + w.length + g.length)
  | _ => none

/-- Push one character of section content onto the accumulator. -/
def pushCur (cur : Option (List Char × List Char)) (c : Char) :
    Option (List Char × List Char) :=
  match cur with
  | none => none
  | some (n, acc) => some (n, c :: acc)

/-- Emit the finished section accumulated so far. -/
def finishCur (cur : Option (List Char × List Char)) : List (List Char × List Char) :=
  match cur with
  | none => []
  | some (n, acc) => [(n, acc.reverse)]

/-- Model of finditer over the section pattern, paired with the raw text
between each match and the next (the section content before stripping).
The skip counter walks over the characters consumed by a match so that
matches never overlap, as with finditer. -/
def scanSec : List Char → Bool → Nat → Option (List Char × List Char) →
    List (List Char × List Char)
  | [], _, _, cur => finishCur cur
  | c :: r, _, Nat.succ k, cur => scanSec r (c = '\n') k cur
  | c :: r, atStart, 0, cur =>
    match (if atStart then matchSectionAt (c :: r) else none) with
    | some (g, len) => finishCur cur ++ scanSec r (c = '\n') (len - 1) (some (g, []))
    | none => scanSec r (c = '\n') 0 (pushCur cur c)

/-- All section matches of the document, in order, with raw contents. -/
def sectionsOf (m : List Char) : List (List Char × List Char) :=
  scanSec m true 0 none

/-- Model of the dict built by SpecParser._split_sections followed by .get:
stripped names, stripped contents, later assignments overwrite earlier
ones, absent key defaults to the empty string. -/
def getSection (m : List Char) (name : String) : List Char :=
  match ((sectionsOf m).filter (fun p => trimL p.1 = name.data)).getLast? with
  | some p => trimL p.2
  | none => []

/-- Raw text before the first section match, with the line-start flag
carried from the given starting status (model of SECTION_PATTERN.search
with a pos argument: the anchor ^ only fires after a real newline). -/
def textUntilSection : List Char → Bool → List Char
  | [], _ => []
  | c :: r, atStart =>
    if atStart && (matchSectionAt (c :: r)).isSome then []
    else c :: textUntilSection r (c = '\n')

/-! ## Bullet and edge-case matchers -/

/-- Model of BULLET_PATTERN r"^-\s+(.+)$" applied by .match to a stripped
single line, followed by group(1).strip(). -/
def bulletOfLine (line : List Char) : Option (List Char) :=
  match trimL line with
  | '-' :: r =>
    let w := r.takeWhile isWS
    let q := r.dropWhile isWS
    if w.isEmpty || q.isEmpty then none else some (trimL q)
  | _ => none

/-- Model of SpecParser._extract_section. -/
def extractSectionItems (content : List Char) : List String :=
  if content.isEmpty then []
  else (splitLinesL content).filterMap (fun l => (bulletOfLine l).map String.mk)

/-- Tail of the edge-case pattern after the arrows: \s*(.+)$ with the
greedy whitespace run capped so that the final group keeps one character. -/
def tailGroup (rest : List Char) : Option (List Char) :=
  match rest with
  | [] => none
  | _ => some (rest.drop (min (rest.takeWhile isWS).length (rest.length - 1)))

/-- The (?:→|->)+ loop after at least one arrow has been consumed: prefer
consuming further arrows, and on failure of the deeper alternatives stop
the repetition here and match \s*(.+)$ on the remainder. -/
def afterArrow (rest : List Char) : Option (List Char) :=
  match rest with
  | '→' :: r =>
    match afterArrow r with
    | some g => some g
    | none => tailGroup rest
  | '-' :: '>' :: r =>
    match afterArrow r with
    | some g => some g
    | none => tailGroup rest
  | _ => tailGroup rest

/-- The mandatory first arrow of (?:→|->)+ followed by the loop. -/
def arrowStart : List Char → Option (List Char)
  | '→' :: r => afterArrow r
  | '-' :: '>' :: r => afterArrow r
  | _ => none

/-- Match \s*(?:→|->)+\s*(.+)$ against a suffix, returning group 2.
The whitespace before the arrows cannot backtrack because no arrow starts
with a whitespace character. -/
def restMatch (t : List Char) : Option (List Char) :=
  arrowStart (t.dropWhile isWS)

/-- Search for the shortest nonempty lazy group (.+?) such that the
remainder matches the arrow tail; returns (group 1, group 2). -/
def splitAtArrow : List Char → Option (List Char × List Char)
  | [] => none
  | c :: r =>
    match restMatch r with
    | some g2 => some ([c], g2)
    | none =>
      match splitAtArrow r with
      | some (pre, g2) => some (c :: pre, g2)
      | none => none

/-- Model of EDGE_CASE_PATTERN r"^-\s*(.+?)\s*(?:→|->)+\s*(.+)$" applied by
.match after the leading dash has been consumed; s is the text after the
dash.  The leading greedy \s* prefers its maximal run, so the lazy group
starts at the first non-whitespace character; if no split there succeeds,
backtracking hands the lazy group one whitespace character. -/
def matchEdge (s : List Char) : Option (List Char × List Char) :=
  let body := s.dropWhile isWS
  match splitAtArrow body with
  | some (pre, g2) => some (pre, g2)
  | none =>
    match (s.takeWhile isWS).getLast?, restMatch body with
    | some w, some g2 => some ([w], g2)
    | _, _ => none

/-- Model of one loop iteration of SpecParser._extract_edge_cases: strip
the line, require a leading dash, re-strip the remainder and match the
edge-case pattern against the dash plus a space plus that remainder. -/
def edgeCaseOfLine (line : List Char) : Option (List Char × List Char) :=
  match trimL line with
  | '-' :: rest =>
    match matchEdge (' ' :: trimL rest) with
    | some (g1, g2) => some (trimL g1, trimL g2)
    | none => none
  | _ => none

/-- Model of SpecParser._extract_edge_cases. -/
def extractEdgeCases (content : List Char) : List (String × String) :=
  if content.isEmpty then []
  else
    (splitLinesL content).foldl
      (fun d l =>
        match edgeCaseOfLine l with
        | some (c, o) => dictInsert d (String.mk c) (String.mk o)
        | none => d)
      []

/-! ## Fenced yaml matcher (regex r"```ya?ml\s*\n(.+?)```" with DOTALL) -/

/-- Leading triple backtick test. -/
def startsTicks (l : List Char) : Bool :=
  startsWithL l "```".data

/-- Shortest prefix, possibly empty, whose remainder starts with three
backticks. -/
def lazyCloseAux : List Char → Option (List Char)
  | [] => if startsTicks [] then some [] else none
  | c :: r =>
    if startsTicks (c :: r) then some []
    else
      match lazyCloseAux r with
      | some g => some (c :: g)
      | none => none

/-- Lazy group (.+?) before the closing fence: at least one character. -/
def lazyClose : List Char → Option (List Char)
  | [] => none
  | c :: r =>
    match lazyCloseAux r with
    | some g => some (c :: g)
    | none => none

/-- Iterate the \s*\n backtracking over the newline-separated segments of
the whitespace run, given in reverse order: the rightmost newline split is
tried first; the leftmost segment has no newline before it and yields no
candidate. -/
def fenceTry : List (List Char) → List Char → Option (List Char)
  | [], _ => none
  | [_], _ => none
  | s :: rest, tail =>
    match lazyClose (s ++ tail) with
    | some g => some g
    | none => fenceTry rest ('\n' :: (s ++ tail))

/-- Match \s*\n(.+?) before the closing fence, where w is the whitespace
run after the yaml tag and tail the text after it. -/
def fenceLoop (w tail : List Char) : Option (List Char) :=
  fenceTry (splitLinesL w).reverse tail

/-- Attempt the fence pattern at the current position. -/
def matchFenceAt (l : List Char) : Option (List Char) :=
  match l with
  | '`' :: '`' :: '`' :: 'y' :: r =>
    match r with
    | 'a' :: 'm' :: 'l' :: r2 =>
      fenceLoop (r2.takeWhile isWS) (r2.dropWhile isWS)
    | 'm' :: 'l' :: r2 =>
      fenceLoop (r2.takeWhile isWS) (r2.dropWhile isWS)
    | _ => none
  | _ => none

/-- Model of re.search for the fence pattern: leftmost start position. -/
def findFence : List Char → Option (List Char)
  | [] => none
  | c :: r =>
    match matchFenceAt (c :: r) with
    | some g => some g
    | none => findFence r

/-! ## SpecParser (src/specs/parser.py) -/

/-- Error message of SpecParser._parse_header for a missing header. -/
def msgHeader : String :=
  "Invalid spec header. Expected format: " ++ squote ++
    "## Spec: FeatureName [TIER]" ++ squote

/-- Error message of SpecParser._parse_header for an unknown tier. -/
def msgTier (t : List Char) : String :=
  "Invalid tier " ++ squote ++ String.mk t ++ squote ++
    ". Valid tiers: HOTFIX, FEATURE, SYSTEM"

/-- Error message for a validation block without a tests command. -/
def msgTests : String :=
  "Validation block must specify " ++ squote ++ "tests" ++ squote ++ " command"

/-- Model of SpecParser._parse_header. -/
def SpecParser.parseHeader (content : List Char) : Except String (List Char × SpecTier) :=
  match findHeader content with
  | none => .error msgHeader
  | some (name, tierRaw, _) =>
    let tierStr := upperL tierRaw
    match tierFromName tierStr with
    | none => .error (msgTier tierStr)
    | some tier => .ok (name, tier)

/-- Model of SpecParser._extract_description: the text between the end of
the header match and the first section match, stripped. -/
def SpecParser.extractDescription (content : List Char) : List Char :=
  match findHeader content with
  | none => []
  | some (_, _, rest) => trimL (textUntilSection rest false)

/-- Model of SpecParser._extract_target_path. -/
def SpecParser.extractTargetPath (content : List Char) : Option String :=
  if content.isEmpty then none
  else
    (splitLinesL content).findSome? (fun line =>
      let l := trimL line
      if !l.isEmpty && !(startsWithL l "#".data) then some (String.mk l) else none)

/-- Accumulator for the recognized validation keys. -/
structure KVAcc where
  tests : Option (List Char)
  typecheck : Option (List Char)
  lint : Option (List Char)
deriving DecidableEq, Repr

/-- One iteration of the key-value loop of SpecParser._parse_validation:
strip the line, require a colon, split at the first colon, normalize the
key, and store the stripped value with empty collapsed to none. -/
def applyKV (acc : KVAcc) (line : List Char) : KVAcc :=
  let l := trimL line
  if l.any (fun c => c = ':') then
    let p := splitFirstColon l
    let key := lowerL (trimL p.1)
    let value := trimL p.2
    let stored := if value.isEmpty then none else some value
    if key = "tests".data then { acc with tests := stored }
    else if key = "typecheck".data then { acc with typecheck := stored }
    else if key = "lint".data then { acc with lint := stored }
    else acc
  else acc

/-- The key-value scan over the lines of the yaml content. -/
def parseKVs (yaml : List Char) : KVAcc :=
  (splitLinesL yaml).foldl applyKV ⟨none, none, none⟩

/-- Model of SpecParser._parse_validation. -/
def SpecParser.parseValidation (content : List Char) : Except String ValidationConfig :=
  if content.isEmpty then
    .ok { tests := "pytest tests/ -v" }
  else
    let yamlContent := (findFence content).getD content
    let config := parseKVs yamlContent
    match config.tests with
    | none => .error msgTests
    | some t =>
      .ok { tests := String.mk t,
            typecheck := config.typecheck.map String.mk,
            lint := config.lint.map String.mk }

/-- Model of SpecParser.parse: the header is parsed first and its failure
propagates, then the validation block, whose failure propagates, then the
document is assembled from the sections. -/
def SpecParser.parse (markdown : List Char) : Except String SpecDocument :=
  match SpecParser.parseHeader markdown with
  | .error e => .error e
  | .ok ht =>
  match SpecParser.parseValidation (getSection markdown "Validation") with
  | .error e => .error e
  | .ok validation =>
  let description := SpecParser.extractDescription markdown
  .ok
    { name := String.mk ht.1
      description := String.mk description
      tier := ht.2
      interface := extractSectionItems (getSection markdown "Interface")
      must_do := extractSectionItems (getSection markdown "Must Do")
      must_not_do := extractSectionItems (getSection markdown "Must Not Do")
      edge_cases := extractEdgeCases (getSection markdown "Edge Cases")
      preconditions := extractSectionItems (getSection markdown "Preconditions")
      postconditions := extractSectionItems (getSection markdown "Postconditions")
      invariants := extractSectionItems (getSection markdown "Invariants")
      validation := validation
      target_path := SpecParser.extractTargetPath (getSection markdown "Target Path") }

/-! ## validate_spec (src/specs/validator.py) -/

/-- Model of the first Validation section found by _check_validation_block,
with stripped content. -/
def findValidationContent (markdown : List Char) : Option (List Char) :=
  ((sectionsOf markdown).find? (fun p => trimL p.1 = "Validation".data)).map
    (fun p => trimL p.2)

/-- The has_tests scan of _check_validation_block: some line assigns a
nonempty value to the tests key. -/
def hasTestsLine (yaml : List Char) : Bool :=
  (splitLinesL yaml).any (fun line =>
    let l := trimL line
    l.any (fun c => c = ':') &&
      (let p := splitFirstColon l
       lowerL (trimL p.1) = "tests".data && !(trimL p.2).isEmpty))

/-- Model of _check_validation_block.  When no Validation section exists
the source consults a raw substring test, but returns none on both of its
branches; the test is kept for fidelity. -/
def checkValidationBlock (markdown : List Char) : Option String :=
  match findValidationContent markdown with
  | none =>
    if containsSub markdown "### Validation".data then none else none
  | some content =>
    let yamlContent := (findFence content).getD content
    if hasTestsLine yamlContent then none else some msgTests

/-- Model of validate_spec.  The source may propagate an exception from the
internal SpecParser.parse call; that propagation is the error case. -/
def validate_spec (markdown : List Char) : Except String SpecValidationResult :=
  let headerErrors :=
    match findHeader markdown with
    | none => [msgHeader]
    | some (_, tierRaw, _) =>
      match tierFromName (upperL tierRaw) with
      | none => [msgTier (upperL tierRaw)]
      | some _ => []
  let errors :=
    headerErrors ++
      (match checkValidationBlock markdown with
       | some e => [e]
       | none => [])
  if errors.isEmpty then
    match SpecParser.parse markdown with
    | .error e => .error e
    | .ok spec => .ok { is_valid := true, spec := some spec, errors := [] }
  else
    .ok { is_valid := false, spec := none, errors := errors }

/-! ## SpecDocument.to_prompt_context (src/specs/contracts.py) -/

/-- Model of SpecDocument.to_prompt_context before the final join: the
lines list built by the source through successive conditional appends.
Python string truthiness makes an empty optional command falsy. -/
def SpecDocument.toPromptLines (d : SpecDocument) : List String :=
  let lines := ["# Specification: " ++ d.name,
                "Tier: " ++ String.mk (upperL d.tier.value.data),
                "",
                "## Description",
                d.description,
                ""]
  let lines := if d.interface.isEmpty then lines else
    lines ++ ["## Interface"] ++ d.interface.map (fun s => "- " ++ s) ++ [""]
  let lines := if d.must_do.isEmpty then lines else
    lines ++ ["## Must Do"] ++ d.must_do.map (fun s => "- " ++ s) ++ [""]
  let lines := if d.must_not_do.isEmpty then lines else
    lines ++ ["## Must Not Do"] ++ d.must_not_do.map (fun s => "- " ++ s) ++ [""]
  let lines := if d.edge_cases.isEmpty then lines else
    lines ++ ["## Edge Cases"] ++
      d.edge_cases.map (fun p => "- " ++ p.1 ++ " → " ++ p.2) ++ [""]
  let lines := if d.preconditions.isEmpty then lines else
    lines ++ ["## Preconditions"] ++ d.preconditions.map (fun s => "- " ++ s) ++ [""]
  let lines := if d.postconditions.isEmpty then lines else
    lines ++ ["## Postconditions"] ++ d.postconditions.map (fun s => "- " ++ s) ++ [""]
  let lines := if d.invariants.isEmpty then lines else
    lines ++ ["## Invariants"] ++ d.invariants.map (fun s => "- " ++ s) ++ [""]
  let lines := lines ++ ["## Validation", "- Tests: " ++ d.validation.tests]
  let lines := lines ++
    (match d.validation.typecheck with
     | some t => if t.isEmpty then [] else ["- Typecheck: " ++ t]
     | none => [])
  let lines := lines ++
    (match d.validation.lint with
     | some t => if t.isEmpty then [] else ["- Lint: " ++ t]
     | none => [])
  let lines := lines ++
    (match d.target_path with
     | some p => if p.isEmpty then [] else ["", "## Target Path", p]
     | none => [])
  lines

/-- Model of SpecDocument.to_prompt_context. -/
def SpecDocument.to_prompt_context (d : SpecDocument) : String :=
  String.intercalate "\n" d.toPromptLines

/-- Headed bullet block of the rendering described by the spec: omitted
entirely when the item list is empty. -/
def bulletBlock (header : String) (items : List String) : List String :=
  if items.isEmpty then [] else [header] ++ items.map (fun s => "- " ++ s) ++ [""]

/-- Edge-case block of the rendering described by the spec: case and
outcome joined by an arrow separator, omitted when empty. -/
def edgeBlock (ecs : List (String × String)) : List String :=
  if ecs.isEmpty then []
  else ["## Edge Cases"] ++ ecs.map (fun p => "- " ++ p.1 ++ " → " ++ p.2) ++ [""]

/-- Optional command line of the rendering described by the spec. -/
def optCmdLine (pre : String) (o : Option String) : List String :=
  match o with
  | some t => if t.isEmpty then [] else [pre ++ t]
  | none => []

/-- Target-path block of the rendering described by the spec. -/
def targetBlock (o : Option String) : List String :=
  match o with
  | some p => if p.isEmpty then [] else ["", "## Target Path", p]
  | none => []

/-- Rendering at the fixed order stated by the spec sentence, written as a
single concatenation of blocks: Description first (always emitted, header
included, even when the description text is empty), then Interface, Must
Do, Must Not Do, Edge Cases, Preconditions, Postconditions, Invariants,
Validation, Target Path, with every empty list section omitted entirely. -/
def specOrderedLines (d : SpecDocument) : List String :=
  ["# Specification: " ++ d.name,
   "Tier: " ++ String.mk (upperL d.tier.value.data),
   "",
   "## Description",
   d.description,
   ""]
  ++ bulletBlock "## Interface" d.interface
  ++ bulletBlock "## Must Do" d.must_do
  ++ bulletBlock "## Must Not Do" d.must_not_do
  ++ edgeBlock d.edge_cases
  ++ bulletBlock "## Preconditions" d.preconditions
  ++ bulletBlock "## Postconditions" d.postconditions
  ++ bulletBlock "## Invariants" d.invariants
  ++ ["## Validation", "- Tests: " ++ d.validation.tests]
  ++ optCmdLine "- Typecheck: " d.validation.typecheck
  ++ optCmdLine "- Lint: " d.validation.lint
  ++ targetBlock d.target_path

/-! ## Prompt builder and phase runner

The single-phase SpecPromptBuilder with a language parameter and the
single-phase SpecPhaseRunner interface (get_request, complete) are
exercised by the test suite but their implementation revision is not
present under src/, which holds the earlier two-phase revision; the
definitions below are therefore modelled from the spec. -/

/-- Modelled from the spec: the GDScript branch of the missing
SpecPromptBuilder._get_test_guidance, referencing the GUT framework,
assertion helper names, before_each and after_each, and the
res://tests/test_*.gd path convention. -/
def gdscriptTestGuidance : String :=
  "Test framework: GUT (Godot Unit Test).\n" ++
  "Every test script must use extends GutTest.\n" ++
  "Use the assertion helpers assert_eq, assert_true and assert_false.\n" ++
  "Use before_each and after_each for setup and teardown.\n" ++
  "Place test files at res://tests/test_*.gd."

/-- Modelled from the spec: the default Python branch of the missing
SpecPromptBuilder._get_test_guidance, referencing fixtures, type hints and
descriptive naming. -/
def pythonTestGuidance : String :=
  "Test framework: pytest.\n" ++
  "Use fixtures for shared setup.\n" ++
  "Include full type hints.\n" ++
  "Use descriptive test names."

/-- Modelled from the spec: the missing single-phase SpecPromptBuilder,
holding a language parameter that defaults to python. -/
structure SpecPromptBuilder where
  language : String := "python"
deriving DecidableEq, Repr

/-- Modelled from the spec: the iteration cap MAX_ITERATIONS = 5. -/
def SpecPromptBuilder.MAX_ITERATIONS : Nat := 5

/-- Modelled from the spec: the missing _get_test_guidance, selecting
test-framework-specific guidance text by language. -/
def SpecPromptBuilder.getTestGuidance (_b : SpecPromptBuilder) (language : String) :
    String :=
  if language = "gdscript" then gdscriptTestGuidance else pythonTestGuidance

/-- Name-slugging rule shared by the path helpers: lower-case the name,
then replace spaces and hyphens with underscores. -/
def slugify (s : String) : String :=
  String.mk (s.data.map (fun c =>
    let lc := c.toLower
    if lc = ' ' || lc = '-' then '_' else lc))

/-- Modelled from the spec: the missing _infer_test_path. -/
def SpecPromptBuilder.inferTestPath (spec : SpecDocument) : String :=
  "tests/test_" ++ slugify spec.name ++ ".py"

/-- Modelled from the spec: the missing _infer_impl_path. -/
def SpecPromptBuilder.inferImplPath (spec : SpecDocument) : String :=
  match spec.target_path with
  | some p => p
  | none => "src/" ++ slugify spec.name ++ ".py"

/-- Modelled from the spec: the missing _get_tier_guidance, three fixed
text blocks keyed by tier. -/
def SpecPromptBuilder.getTierGuidance (tier : SpecTier) : String :=
  match tier with
  | .HOTFIX => "Tier: HOTFIX - minimal scope, fast iteration. 1-3 targeted tests."
  | .FEATURE =>
    "Tier: FEATURE - full behavior coverage. All edge cases tested. " ++
      "Contract tests for public interfaces."
  | .SYSTEM =>
    "Tier: SYSTEM - Exhaustive test coverage. Integration tests if multiple " ++
      "modules involved. Invariant testing."

/-- Modelled from the spec: title, trust-the-spec directive block,
circuit breaker directive and specification heading of the missing
build_prompt. -/
def promptIntro : String :=
  "# Spec-Driven Implementation Task\n" ++
  "## CRITICAL: TRUST THE SPEC\n" ++
  "The specification below is COMPLETE. Do not explore the repository, " ++
  "read documentation files, or search for conventions. Only read files " ++
  "you need to import from or that contain types referenced in the interface.\n" ++
  "## CIRCUIT BREAKER\n" ++
  "If you have made 8 or more file reads without writing any code, stop " ++
  "exploring and write the code with current knowledge.\n" ++
  "## THE SPECIFICATION\n"

/-- Modelled from the spec: the implement step of the missing
build_prompt, with target path and the five fixed implementation rules. -/
def promptStep1 (spec : SpecDocument) : String :=
  "## STEP 1: IMPLEMENT\n" ++
  "Implementation location: " ++ SpecPromptBuilder.inferImplPath spec ++ "\n" ++
  "Follow interface signatures exactly. Handle all edge cases. Check " ++
  "preconditions. Satisfy postconditions. Respect all Must Not Do constraints.\n"

/-- Modelled from the spec: the write-tests step of the missing
build_prompt, with the test path and per-requirement and per-edge-case
test obligations. -/
def promptStep2 (spec : SpecDocument) : String :=
  "## STEP 2: WRITE TESTS\n" ++
  "Test file location: " ++ SpecPromptBuilder.inferTestPath spec ++ "\n" ++
  "Write tests for the behavior contract: one test per Must Do requirement " ++
  "and one test per edge case.\n"

/-- Modelled from the spec: the validate step of the missing build_prompt,
with the literal tests command and the iteration cap MAX_ITERATIONS = 5. -/
def promptStep3 (spec : SpecDocument) : String :=
  "## STEP 3: VALIDATE\n" ++
  "Run: " ++ spec.validation.tests ++ "\n" ++
  "Iterate until the tests pass, up to 5 attempts."

/-- Modelled from the spec: the missing single-phase
SpecPromptBuilder.build_prompt, producing one self-contained instructional
document in the fixed order: trust-the-spec directive, circuit breaker,
rendered specification, tier guidance, implement step, write-tests step
with language guidance, validate step with the literal tests command and
the iteration cap. -/
def SpecPromptBuilder.build_prompt (b : SpecPromptBuilder) (spec : SpecDocument) :
    String :=
  promptIntro ++
  spec.to_prompt_context ++ "\n" ++
  SpecPromptBuilder.getTierGuidance spec.tier ++ "\n" ++
  promptStep1 spec ++
  promptStep2 spec ++
  b.getTestGuidance b.language ++ "\n" ++
  promptStep3 spec

/-- Modelled from the spec: the missing single-phase SpecPhaseRunner,
holding only its constructor-supplied spec and project path. -/
structure SpecPhaseRunner where
  spec : SpecDocument
  project_path : String
deriving DecidableEq, Repr

/-- Modelled from the spec: SpecPhaseRunner construction, failing
immediately with a type error when the spec is null. -/
def mkSpecPhaseRunner (spec : Option SpecDocument) (project_path : String) :
    Except String SpecPhaseRunner :=
  match spec with
  | none => .error "TypeError: spec must be a SpecDocument"
  | some s => .ok { spec := s, project_path := project_path }

/-- Modelled from the spec: the missing SpecPhaseRunner.get_request,
synchronously building a unified prompt through the SpecPromptBuilder and
wrapping it with phase impl and a null test path. -/
def SpecPhaseRunner.get_request (r : SpecPhaseRunner) : PhaseRequest :=
  { phase := "impl",
    prompt := SpecPromptBuilder.build_prompt {} r.spec,
    spec := r.spec,
    test_path := none }

/-- Modelled from the spec: the missing SpecPhaseRunner.complete, a
stateless lifecycle no-op hook; the runner state is returned unchanged. -/
def SpecPhaseRunner.complete (r : SpecPhaseRunner) (_success : Bool) : SpecPhaseRunner :=
  r

/-! ## Helper predicates used in claim statements -/

/-- Does the document have a section whose stripped name is Validation. -/
def hasValidationSection (m : List Char) : Bool :=
  (sectionsOf m).any (fun p => trimL p.1 = "Validation".data)

/-- Does the first Validation section contain, after the fenced-yaml
unwrapping, a line assigning an empty value to the tests key. -/
def hasEmptyTestsAssign (m : List Char) : Bool :=
  match findValidationContent m with
  | none => false
  | some c =>
    let y := (findFence c).getD c
    (splitLinesL y).any (fun line =>
      let l := trimL line
      l.any (fun ch => ch = ':') &&
        (let p := splitFirstColon l
         lowerL (trimL p.1) = "tests".data && (trimL p.2).isEmpty))

/-! ## Basic lemmas about the string helpers -/

/-- Data of a string append. -/
theorem strData (a b : String) : (a ++ b).data = a.data ++ b.data := rfl

/-- A list starts with itself and more. -/
theorem startsWithL_self_append (p b : List Char) : startsWithL (p ++ b) p = true := by
  induction p with
  | nil => cases b <;> rfl
  | cons c r ih => simp [startsWithL, ih]

/-- Starting with a pattern survives appending on the right. -/
theorem startsWithL_append_right (a b p : List Char) (h : startsWithL a p = true) :
    startsWithL (a ++ b) p = true := by
  induction a generalizing p with
  | nil =>
    cases p with
    | nil => cases b <;> rfl
    | cons x q => simp [startsWithL] at h
  | cons c r ih =>
    cases p with
    | nil => rfl
    | cons x q =>
      simp only [startsWithL, Bool.and_eq_true] at h ⊢
      exact ⟨h.1, ih q h.2⟩

/-- A substring of the right part is a substring of the whole. -/
theorem containsSub_append_right (a b p : List Char) (h : containsSub b p = true) :
    containsSub (a ++ b) p = true := by
  induction a with
  | nil => simpa using h
  | cons c r ih =>
    simp only [List.cons_append, containsSub, Bool.or_eq_true]
    exact Or.inr ih

/-- A substring of the left part is a substring of the whole. -/
theorem containsSub_append_left (a b p : List Char) (h : containsSub a p = true) :
    containsSub (a ++ b) p = true := by
  induction a with
  | nil =>
    simp only [containsSub, List.isEmpty_iff] at h
    subst h
    cases b with
    | nil => rfl
    | cons c r => simp [containsSub, startsWithL]
  | cons c r ih =>
    simp only [containsSub, Bool.or_eq_true] at h
    simp only [List.cons_append, containsSub, Bool.or_eq_true]
    cases h with
    | inl h => exact Or.inl (startsWithL_append_right _ _ _ h)
    | inr h => exact Or.inr (ih h)

/-- A list contains itself. -/
theorem containsSub_self (p : List Char) : containsSub p p = true := by
  cases p with
  | nil => rfl
  | cons c r =>
    simp only [containsSub, Bool.or_eq_true]
    exact Or.inl (by simpa using startsWithL_self_append (c :: r) [])

/-- A substring occurring in a middle factor occurs in the whole. -/
theorem containsSub_middle (a m b p : List Char) (h : containsSub m p = true) :
    containsSub (a ++ m ++ b) p = true := by
  rw [List.append_assoc]
  exact containsSub_append_right _ _ _ (containsSub_append_left _ _ _ h)

/-! ## Concrete inputs named by the claims -/

/-- End-to-end scenario 1 input. -/
def c8input : String :=
  "## Spec: ReverseString [FEATURE]\n\nReverses a string.\n\n### Must Do\n" ++
  "- Return the input reversed\n\n### Validation\ntests: pytest tests/ -v\n"

/-- End-to-end scenario 3 input. -/
def c7input : String := "## Spec: X [BOGUS]\n\n### Validation\ntests: pytest"

/-- Claim C8 document: the expected parse of scenario 1. -/
def c8doc : SpecDocument :=
  { name := "ReverseString",
    description := "Reverses a string.",
    tier := .FEATURE,
    interface := [],
    must_do := ["Return the input reversed"],
    must_not_do := [],
    edge_cases := [],
    preconditions := [],
    postconditions := [],
    invariants := [],
    validation := { tests := "pytest tests/ -v" },
    target_path := none }

/-- Claim C8: parsing the ReverseString markdown succeeds and yields name
ReverseString, tier FEATURE, the single must-do item, the pytest tests
command and a null target path. -/
theorem C8_theorem :
    SpecParser.parse c8input.data = .ok c8doc ∧
      c8doc.name = "ReverseString" ∧ c8doc.tier = .FEATURE ∧
      c8doc.must_do = ["Return the input reversed"] ∧
      c8doc.validation.tests = "pytest tests/ -v" ∧
      c8doc.target_path = none :=
  ⟨rfl, rfl, rfl, rfl, rfl, rfl⟩

/-- Claim C1, counterexample: a markdown whose Validation section is
present with an empty body is rejected by validate_spec, yet
SpecParser.parse succeeds on it, refuting the claimed equivalence. -/
theorem C1_counterexample :
    validate_spec "## Spec: X [FEATURE]\n\n### Validation".data =
        .ok { is_valid := false, spec := none, errors := [msgTests] } ∧
      isOkE (SpecParser.parse "## Spec: X [FEATURE]\n\n### Validation".data) = true :=
  ⟨rfl, rfl⟩

/-- Claim C1, amended: when validate_spec returns a result with
is_valid true, SpecParser.parse succeeds on the same markdown and the
stored document is exactly the parsed one; the converse direction of the
original claim is refuted by the counterexample. -/
theorem C1_amended (m : List Char) (r : SpecValidationResult)
    (h : validate_spec m = .ok r) (hv : r.is_valid = true) :
    ∃ d, SpecParser.parse m = .ok d ∧ r.spec = some d := by
  unfold validate_spec at h
  set errs :=
    (match findHeader m with
     | none => [msgHeader]
     | some (_, tierRaw, _) =>
       match tierFromName (upperL tierRaw) with
       | none => [msgTier (upperL tierRaw)]
       | some _ => []) ++
      (match checkValidationBlock m with
       | some e => [e]
       | none => []) with herrs
  by_cases he : errs.isEmpty
  · rw [if_pos he] at h
    cases hp : SpecParser.parse m with
    | error e => rw [hp] at h; exact absurd h (by simp)
    | ok d =>
      rw [hp] at h
      refine ⟨d, rfl, ?_⟩
      have : r = { is_valid := true, spec := some d, errors := [] } := by
        injection h with h1
        exact h1.symm
      rw [this]
  · rw [if_neg he] at h
    have : r = { is_valid := false, spec := none, errors := errs } := by
      injection h with h1
      exact h1.symm
    rw [this] at hv
    simp at hv

/-- Claim C1, witness: the amended theorem applied at a concrete valid
markdown. -/
theorem C1_witness :
    ∃ d, SpecParser.parse "## Spec: W1 [FEATURE]".data = .ok d ∧
      (SpecValidationResult.mk true
        (some { name := "W1", description := "", tier := .FEATURE,
                interface := [], must_do := [], must_not_do := [],
                edge_cases := [], preconditions := [], postconditions := [],
                invariants := [], validation := { tests := "pytest tests/ -v" },
                target_path := none }) []).spec = some d :=
  C1_amended _ _ (by rfl) rfl

/-- Claim C6: every result actually returned by validate_spec satisfies
the strict complementary invariant: validity comes with a document and no
errors, invalidity with no document and at least one error. -/
theorem C6_theorem (m : List Char) (r : SpecValidationResult)
    (h : validate_spec m = .ok r) :
    (r.is_valid = true → r.spec ≠ none ∧ r.errors = []) ∧
      (r.is_valid = false → r.spec = none ∧ r.errors ≠ []) := by
  unfold validate_spec at h
  set errs :=
    (match findHeader m with
     | none => [msgHeader]
     | some (_, tierRaw, _) =>
       match tierFromName (upperL tierRaw) with
       | none => [msgTier (upperL tierRaw)]
       | some _ => []) ++
      (match checkValidationBlock m with
       | some e => [e]
       | none => []) with herrs
  by_cases he : errs.isEmpty
  · rw [if_pos he] at h
    cases hp : SpecParser.parse m with
    | error e => rw [hp] at h; exact absurd h (by simp)
    | ok d =>
      rw [hp] at h
      have : r = { is_valid := true, spec := some d, errors := [] } := by
        injection h with h1
        exact h1.symm
      rw [this]
      exact ⟨fun _ => ⟨by simp, rfl⟩, fun hc => by simp at hc⟩
  · rw [if_neg he] at h
    have : r = { is_valid := false, spec := none, errors := errs } := by
      injection h with h1
      exact h1.symm
    rw [this]
    refine ⟨fun hc => by simp at hc, fun _ => ⟨rfl, ?_⟩⟩
    simpa [List.isEmpty_iff] using he

/-- Claim C6, witness: the invariant theorem applied at the empty markdown,
whose result is invalid with the header error. -/
theorem C6_witness :
    ((SpecValidationResult.mk false none [msgHeader]).is_valid = true →
        (SpecValidationResult.mk false none [msgHeader]).spec ≠ none ∧
          (SpecValidationResult.mk false none [msgHeader]).errors = []) ∧
      ((SpecValidationResult.mk false none [msgHeader]).is_valid = false →
        (SpecValidationResult.mk false none [msgHeader]).spec = none ∧
          (SpecValidationResult.mk false none [msgHeader]).errors ≠ []) :=
  C6_theorem [] _ (by rfl)

/-- Claim C2, counterexample: a markdown whose Validation section is
present with an empty body has no tests key in it, yet SpecParser.parse
succeeds, refuting the claimed characterization of the raising behavior. -/
theorem C2_counterexample :
    hasValidationSection "## Spec: Y [FEATURE]\n\n### Validation".data = true ∧
      hasTestsLine (getSection "## Spec: Y [FEATURE]\n\n### Validation".data
        "Validation") = false ∧
      isOkE (SpecParser.parse "## Spec: Y [FEATURE]\n\n### Validation".data) = true :=
  ⟨rfl, rfl, rfl⟩

/-- Claim C5, counterexample document with an empty description. -/
def c5doc : SpecDocument :=
  { name := "Empty", description := "", tier := .FEATURE,
    interface := [], must_do := [], must_not_do := [], edge_cases := [],
    preconditions := [], postconditions := [], invariants := [],
    validation := { tests := "pytest tests/ -v" }, target_path := none }

/-- Claim C5, counterexample: the rendering emits the Description header
even though the description is empty, refuting the claim that every empty
section, the description included, is omitted entirely. -/
theorem C5_counterexample :
    c5doc.description = "" ∧ "## Description" ∈ c5doc.toPromptLines :=
  ⟨rfl, by decide⟩

/-- Claim C9, counterexample: with an outcome that trims to the empty
string the bullet is dropped instead of producing the claimed entry. -/
theorem C9_counterexample :
    extractEdgeCases "- x → ".data = [] ∧
      extractEdgeCases "- x → ".data ≠ [("x", "")] :=
  ⟨rfl, by decide⟩

/-- Claim C10, counterexample: a Validation section holding an
empty-valued tests line next to a nonempty one is accepted by both
SpecParser.parse and validate_spec, refuting the claim that an
empty-valued tests key always behaves like an absent one. -/
theorem C10_counterexample :
    hasEmptyTestsAssign "## Spec: Z [FEATURE]\n\n### Validation\ntests:\ntests: x".data
        = true ∧
      isOkE (SpecParser.parse
        "## Spec: Z [FEATURE]\n\n### Validation\ntests:\ntests: x".data) = true ∧
      (validate_spec
        "## Spec: Z [FEATURE]\n\n### Validation\ntests:\ntests: x".data).map
          (fun r => r.is_valid) = .ok true :=
  ⟨rfl, rfl, rfl⟩

/-- Claim C4: the runner obtained from a document wraps the unified prompt
of the builder with phase impl and a null test path, a null spec is a
construction error, and complete is a stateless no-op. -/
theorem C4_theorem (spec : SpecDocument) (path : String) (b : Bool) :
    (mkSpecPhaseRunner (some spec) path).map SpecPhaseRunner.get_request =
        .ok { phase := "impl",
              prompt := SpecPromptBuilder.build_prompt {} spec,
              spec := spec,
              test_path := none } ∧
      isOkE (mkSpecPhaseRunner none path) = false ∧
      SpecPhaseRunner.complete { spec := spec, project_path := path } b =
        { spec := spec, project_path := path } :=
  ⟨rfl, rfl, rfl⟩

set_option maxRecDepth 40000

/-- Data of String.mk. -/
theorem mkData (l : List Char) : (String.mk l).data = l := rfl

/-- Claim C7: an unrecognized tier always produces an error naming the
(upper-cased) offending value and listing the valid tiers; on the
scenario 3 input the parse error contains BOGUS and the tier list, and
validate_spec returns an invalid result whose error mentions tier. -/
theorem C7_theorem :
    (∀ (m name tierRaw rest : List Char),
        findHeader m = some (name, tierRaw, rest) →
        tierFromName (upperL tierRaw) = none →
        SpecParser.parse m = .error (msgTier (upperL tierRaw)) ∧
          containsSub (msgTier (upperL tierRaw)).data (upperL tierRaw) = true ∧
          containsSub (msgTier (upperL tierRaw)).data
            "HOTFIX, FEATURE, SYSTEM".data = true) ∧
      SpecParser.parse c7input.data = .error (msgTier "BOGUS".data) ∧
      containsSub (msgTier "BOGUS".data).data "BOGUS".data = true ∧
      validate_spec c7input.data =
        .ok { is_valid := false, spec := none, errors := [msgTier "BOGUS".data] } ∧
      containsSub (msgTier "BOGUS".data).data "tier".data = true := by
  refine ⟨?_, by rfl, by rfl, by rfl, by rfl⟩
  intro m name tierRaw rest h1 h2
  have hph : SpecParser.parseHeader m = .error (msgTier (upperL tierRaw)) := by
    simp only [SpecParser.parseHeader, h1, h2]
  refine ⟨?_, ?_, ?_⟩
  · unfold SpecParser.parse
    rw [hph]
  · unfold msgTier
    simp only [strData, mkData, List.append_assoc]
    apply containsSub_append_right
    apply containsSub_append_right
    exact containsSub_append_left _ _ _ (containsSub_self _)
  · unfold msgTier
    simp only [strData, mkData, List.append_assoc]
    apply containsSub_append_right
    apply containsSub_append_right
    apply containsSub_append_right
    apply containsSub_append_right
    decide

/-- Claim C7, witness: the tier-rejection theorem applied at a concrete
lower-case bogus tier. -/
theorem C7_witness :
    SpecParser.parse "## Spec: W7 [nope]".data =
        .error (msgTier (upperL "nope".data)) ∧
      containsSub (msgTier (upperL "nope".data)).data (upperL "nope".data) = true ∧
      containsSub (msgTier (upperL "nope".data)).data
        "HOTFIX, FEATURE, SYSTEM".data = true :=
  C7_theorem.1 "## Spec: W7 [nope]".data "W7".data "nope".data [] (by rfl) (by rfl)

/-- Claim C3, counterexample document whose tests command mentions pytest. -/
def c3doc : SpecDocument :=
  { name := "Game", description := "A feature.", tier := .FEATURE,
    interface := [], must_do := [], must_not_do := [], edge_cases := [],
    preconditions := [], postconditions := [], invariants := [],
    validation := { tests := "pytest tests/ -v" }, target_path := none }

/-- Claim C3, counterexample: for the gdscript language the build_prompt
output still contains pytest whenever the document carries a pytest tests
command, refuting the claimed absence of pytest from the whole output. -/
theorem C3_counterexample :
    containsSub
        (SpecPromptBuilder.build_prompt { language := "gdscript" } c3doc).data
        "GUT".data = true ∧
      containsSub
        (SpecPromptBuilder.build_prompt { language := "gdscript" } c3doc).data
        "pytest".data = true :=
  ⟨rfl, rfl⟩

/-- Claim C3, amended: the language-selected test guidance carries the
framework markers, with the gdscript guidance free of pytest and the
python guidance free of GUT; the full build_prompt output always contains
the markers of the selected guidance. -/
theorem C3_amended (d : SpecDocument) :
    containsSub ((SpecPromptBuilder.mk "gdscript").getTestGuidance "gdscript").data
        "GUT".data = true ∧
      containsSub ((SpecPromptBuilder.mk "gdscript").getTestGuidance "gdscript").data
        "extends GutTest".data = true ∧
      containsSub ((SpecPromptBuilder.mk "gdscript").getTestGuidance "gdscript").data
        "pytest".data = false ∧
      containsSub ((SpecPromptBuilder.mk "python").getTestGuidance "python").data
        "pytest".data = true ∧
      containsSub ((SpecPromptBuilder.mk "python").getTestGuidance "python").data
        "GUT".data = false ∧
      containsSub (SpecPromptBuilder.build_prompt { language := "gdscript" } d).data
        "GUT".data = true ∧
      containsSub (SpecPromptBuilder.build_prompt { language := "gdscript" } d).data
        "extends GutTest".data = true ∧
      containsSub (SpecPromptBuilder.build_prompt { language := "python" } d).data
        "pytest".data = true := by
  refine ⟨by rfl, by rfl, by rfl, by rfl, by rfl, ?_, ?_, ?_⟩
  all_goals
  · simp only [SpecPromptBuilder.build_prompt, strData, List.append_assoc]
    apply containsSub_append_right
    apply containsSub_append_right
    apply containsSub_append_right
    apply containsSub_append_right
    apply containsSub_append_right
    apply containsSub_append_right
    apply containsSub_append_right
    apply containsSub_append_left
    decide

/-- An append under the else branch commutes out of the conditional. -/
theorem skip_ite (c : Prop) [Decidable c] (l blk : List String) :
    (if c then l else l ++ blk) = l ++ (if c then [] else blk) := by
  split <;> simp

/-- A three-part append under the else branch commutes out of the
conditional. -/
theorem skip_ite3 (c : Prop) [Decidable c] (l a b e : List String) :
    (if c then l else l ++ a ++ b ++ e) = l ++ (if c then [] else a ++ b ++ e) := by
  split <;> simp

/-- Claim C5, amended: the rendered lines equal the fixed-order rendering
with Description always present (even when empty) and every empty list
section omitted. -/
theorem C5_amended (d : SpecDocument) : d.toPromptLines = specOrderedLines d := by
  unfold SpecDocument.toPromptLines specOrderedLines bulletBlock edgeBlock
    optCmdLine targetBlock
  simp only [skip_ite3]

/-- The validation block parser fails exactly on nonempty content whose
key-value scan leaves the tests key unset. -/
theorem parseValidation_isOk_false_iff (c : List Char) :
    isOkE (SpecParser.parseValidation c) = false ↔
      (c ≠ [] ∧ (parseKVs ((findFence c).getD c)).tests = none) := by
  unfold SpecParser.parseValidation
  by_cases hc : c.isEmpty
  · have hnil : c = [] := List.isEmpty_iff.mp hc
    subst hnil
    simp [isOkE]
  · have hc2 : ¬ c = [] := by simpa [List.isEmpty_iff] using hc
    rw [if_neg (by simpa [List.isEmpty_iff] using hc)]
    cases ht : (parseKVs ((findFence c).getD c)).tests with
    | none => simp [isOkE, hc2, ht]
    | some t => simp [isOkE, hc2, ht]

/-- SpecParser.parse fails exactly when the header or the validation block
fails. -/
theorem parse_isOk_false_iff (m : List Char) :
    isOkE (SpecParser.parse m) = false ↔
      (isOkE (SpecParser.parseHeader m) = false ∨
        isOkE (SpecParser.parseValidation (getSection m "Validation")) = false) := by
  unfold SpecParser.parse
  cases hh : SpecParser.parseHeader m with
  | error e => simp [isOkE]
  | ok ht =>
    cases hv : SpecParser.parseValidation (getSection m "Validation") with
    | error e => simp [isOkE]
    | ok v => simp [isOkE]

/-- Without a Validation section the parser sees empty section content. -/
theorem getSection_validation_nil (m : List Char)
    (h : hasValidationSection m = false) : getSection m "Validation" = [] := by
  unfold getSection
  have hfil : (sectionsOf m).filter (fun p => trimL p.1 = "Validation".data) = [] := by
    unfold hasValidationSection at h
    rw [List.filter_eq_nil_iff]
    intro a ha
    have := (List.any_eq_false).mp h a ha
    simpa using this
  rw [hfil]
  rfl

/-- Claim C2, amended: SpecParser.parse raises exactly when the header is
malformed or the Validation section content is nonempty with no tests key
carrying a nonempty value; with a well-formed header and no Validation
section at all, parse succeeds and the document holds the default
ValidationConfig with the pytest command and null typecheck and lint. -/
theorem C2_amended (m : List Char) :
    (isOkE (SpecParser.parse m) = false ↔
      (isOkE (SpecParser.parseHeader m) = false ∨
        (getSection m "Validation" ≠ [] ∧
          (parseKVs ((findFence (getSection m "Validation")).getD
            (getSection m "Validation"))).tests = none))) ∧
    (isOkE (SpecParser.parseHeader m) = true → hasValidationSection m = false →
      ∃ d, SpecParser.parse m = .ok d ∧
        d.validation = { tests := "pytest tests/ -v" }) := by
  constructor
  · exact (parse_isOk_false_iff m).trans
      (or_congr Iff.rfl (parseValidation_isOk_false_iff _))
  · intro hok hnov
    have hGet : getSection m "Validation" = [] := getSection_validation_nil m hnov
    cases hh : SpecParser.parseHeader m with
    | error e => rw [hh] at hok; exact absurd hok (by simp [isOkE])
    | ok ht =>
      unfold SpecParser.parse
      rw [hh, hGet]
      exact ⟨_, rfl, rfl⟩

/-- Claim C2, witness: the amended theorem applied at a concrete markdown
with a well-formed header and no Validation section. -/
theorem C2_witness :
    ∃ d, SpecParser.parse "## Spec: W2 [FEATURE]".data = .ok d ∧
      d.validation = { tests := "pytest tests/ -v" } :=
  (C2_amended "## Spec: W2 [FEATURE]".data).2 (by rfl) (by rfl)

/-- Does a line assign to the tests key (possibly with an empty value). -/
def isTestsAssign (line : List Char) : Bool :=
  (trimL line).any (fun c => c = ':') &&
    lowerL (trimL (splitFirstColon (trimL line)).1) = "tests".data

/-- Is the assigned value of the line empty after trimming. -/
def testsValueEmpty (line : List Char) : Bool :=
  (trimL (splitFirstColon (trimL line)).2).isEmpty

/-- A filter with a singleton result pins down find?. -/
theorem find?_of_filter_singleton {α : Type} (l : List α) (p : α → Bool) (s : α)
    (h : l.filter p = [s]) : l.find? p = some s := by
  induction l with
  | nil => simp at h
  | cons a as ih =>
    by_cases hp : p a
    · simp only [List.filter_cons, hp, if_pos] at h
      have ha : a = s := (List.cons_eq_cons.mp h).1
      subst ha
      simp [List.find?_cons, hp]
    · simp only [List.filter_cons, Bool.not_eq_true] at h
      rw [if_neg (by simp [hp])] at h
      simp [List.find?_cons, hp]
      exact ih h

/-- The key-value fold never sets the tests key when every tests
assignment in the lines carries an empty value. -/
theorem foldl_tests_none (lines : List (List Char)) (acc : KVAcc)
    (hacc : acc.tests = none)
    (h : ∀ l ∈ lines, isTestsAssign l = true → testsValueEmpty l = true) :
    (lines.foldl applyKV acc).tests = none := by
  induction lines generalizing acc with
  | nil => simpa using hacc
  | cons l ls ih =>
    simp only [List.foldl_cons]
    refine ih (applyKV acc l) ?_ (fun x hx => h x (List.mem_cons_of_mem _ hx))
    unfold applyKV
    by_cases hc : (trimL l).any (fun c => c = ':') = true
    · rw [if_pos hc]
      by_cases hk : lowerL (trimL (splitFirstColon (trimL l)).1) = "tests".data
      · rw [if_pos hk]
        have hta : isTestsAssign l = true := by
          simp [isTestsAssign, hc, hk]
        have hve : testsValueEmpty l = true := h l (List.mem_cons_self _ _) hta
        unfold testsValueEmpty at hve
        simp [hve]
      · rw [if_neg hk]
        by_cases h2 : lowerL (trimL (splitFirstColon (trimL l)).1) = "typecheck".data
        · rw [if_pos h2]; simpa using hacc
        · rw [if_neg h2]
          by_cases h3 : lowerL (trimL (splitFirstColon (trimL l)).1) = "lint".data
          · rw [if_pos h3]; simpa using hacc
          · rw [if_neg h3]; simpa using hacc
    · rw [if_neg hc]; simpa using hacc

/-- The validator has_tests scan fails when every tests assignment in the
lines carries an empty value. -/
theorem hasTestsLine_false (y : List Char)
    (h : ∀ l ∈ splitLinesL y, isTestsAssign l = true → testsValueEmpty l = true) :
    hasTestsLine y = false := by
  unfold hasTestsLine
  rw [List.any_eq_false]
  intro line hmem
  intro hcontra
  simp only [Bool.and_eq_true, decide_eq_true_eq] at hcontra
  obtain ⟨hc, hk, hv⟩ := hcontra
  have hta : isTestsAssign line = true := by
    simp [isTestsAssign, hc, hk]
  have := h line hmem hta
  unfold testsValueEmpty at this
  simp [this] at hv

/-- The validator header scan produces no errors when the parser header
succeeds. -/
theorem headerErrors_nil (m : List Char)
    (h : isOkE (SpecParser.parseHeader m) = true) :
    (match findHeader m with
     | none => [msgHeader]
     | some (_, tierRaw, _) =>
       match tierFromName (upperL tierRaw) with
       | none => [msgTier (upperL tierRaw)]
       | some _ => []) = ([] : List String) := by
  cases hf : findHeader m with
  | none =>
    exfalso
    unfold SpecParser.parseHeader at h
    rw [hf] at h
    simp [isOkE] at h
  | some x =>
    obtain ⟨name, tierRaw, rest⟩ := x
    cases htf : tierFromName (upperL tierRaw) with
    | none =>
      exfalso
      unfold SpecParser.parseHeader at h
      rw [hf] at h
      simp only [htf] at h
      simp [isOkE] at h
    | some t => simp [htf]

/-- Claim C10, amended: for a markdown with a well-formed header and a
single Validation section whose content has at least one tests assignment
and only empty-valued tests assignments, SpecParser.parse raises the
missing-tests error and validate_spec reports exactly that error. -/
theorem C10_amended (m : List Char) (s : List Char × List Char)
    (hone : (sectionsOf m).filter (fun p => trimL p.1 = "Validation".data) = [s])
    (hheader : isOkE (SpecParser.parseHeader m) = true)
    (hsome : (splitLinesL ((findFence (trimL s.2)).getD (trimL s.2))).any
        isTestsAssign = true)
    (hempty : ∀ line ∈ splitLinesL ((findFence (trimL s.2)).getD (trimL s.2)),
        isTestsAssign line = true → testsValueEmpty line = true) :
    SpecParser.parse m = .error msgTests ∧
      validate_spec m =
        .ok { is_valid := false, spec := none, errors := [msgTests] } := by
  have hGet : getSection m "Validation" = trimL s.2 := by
    unfold getSection
    rw [hone]
    rfl
  have hcne : ¬ trimL s.2 = [] := by
    intro hnil
    rw [hnil] at hsome
    exact absurd hsome (by decide)
  have hTestsNone :
      (parseKVs ((findFence (trimL s.2)).getD (trimL s.2))).tests = none := by
    unfold parseKVs
    exact foldl_tests_none _ _ rfl hempty
  have hpv : SpecParser.parseValidation (trimL s.2) = .error msgTests := by
    unfold SpecParser.parseValidation
    rw [if_neg (by simpa [List.isEmpty_iff] using hcne)]
    simp only [hTestsNone]
  have hparse : SpecParser.parse m = .error msgTests := by
    cases hh : SpecParser.parseHeader m with
    | error e =>
      rw [hh] at hheader
      exact absurd hheader (by simp [isOkE])
    | ok ht =>
      unfold SpecParser.parse
      rw [hh, hGet, hpv]
  refine ⟨hparse, ?_⟩
  have hfv : findValidationContent m = some (trimL s.2) := by
    unfold findValidationContent
    rw [find?_of_filter_singleton _ _ _ hone]
    rfl
  have hnt : hasTestsLine ((findFence (trimL s.2)).getD (trimL s.2)) = false :=
    hasTestsLine_false _ hempty
  have hcb : checkValidationBlock m = some msgTests := by
    unfold checkValidationBlock
    rw [hfv]
    simp [hnt]
  unfold validate_spec
  rw [headerErrors_nil m hheader, hcb]
  rfl

/-- Claim C10, witness: the amended theorem applied at a markdown whose
Validation section holds the single line tests with an empty value. -/
theorem C10_witness :
    SpecParser.parse "## Spec: T10 [FEATURE]\n\n### Validation\ntests:".data =
        .error msgTests ∧
      validate_spec "## Spec: T10 [FEATURE]\n\n### Validation\ntests:".data =
        .ok { is_valid := false, spec := none, errors := [msgTests] } :=
  C10_amended _ ("Validation".data, "\ntests:".data)
    (by rfl) (by rfl) (by decide) (by decide)

/-! ## List lemmas for the edge-case matcher -/

/-- dropWhile over an append. -/
theorem dropWhile_append_char (p : Char → Bool) (A B : List Char) :
    (A ++ B).dropWhile p =
      if A.dropWhile p = [] then B.dropWhile p else A.dropWhile p ++ B := by
  induction A with
  | nil => by_cases h : B.dropWhile p = [] <;> simp [h]
  | cons a A ih =>
    by_cases hp : p a
    · simpa [List.dropWhile_cons, hp] using ih
    · simp [List.dropWhile_cons, hp]

/-- takeWhile over an append stopping at the head of the right part. -/
theorem takeWhile_append_of_head_false (p : Char → Bool) (W : List Char)
    (x : Char) (r : List Char) (hW : ∀ y ∈ W, p y = true) (hx : p x = false) :
    (W ++ x :: r).takeWhile p = W := by
  induction W with
  | nil => simp [List.takeWhile_cons, hx]
  | cons w W ih =>
    have hw : p w = true := hW w (List.mem_cons_self _ _)
    simp only [List.cons_append, List.takeWhile_cons, hw, if_pos]
    rw [ih (fun y hy => hW y (List.mem_cons_of_mem _ hy))]

/-- The head of a dropWhile result fails the predicate. -/
theorem dropWhile_head_false (p : Char → Bool) (l : List Char) (x : Char)
    (r : List Char) (h : l.dropWhile p = x :: r) : p x = false := by
  induction l with
  | nil => simp at h
  | cons a A ih =>
    by_cases hp : p a
    · rw [List.dropWhile_cons, if_pos hp] at h
      exact ih h
    · rw [List.dropWhile_cons, if_neg hp] at h
      obtain ⟨h1, h2⟩ := List.cons_eq_cons.mp h
      rw [← h1]
      simpa using hp

/-- dropTrailingWS of an all-whitespace list. -/
theorem dtw_all_ws (B : List Char) (h : ∀ x ∈ B, isWS x = true) :
    dropTrailingWS B = [] := by
  induction B with
  | nil => rfl
  | cons b B ih =>
    have hb : isWS b = true := h b (List.mem_cons_self _ _)
    have := ih (fun x hx => h x (List.mem_cons_of_mem _ hx))
    simp [dropTrailingWS, this, hb]

/-- dropTrailingWS over an append. -/
theorem dtw_append (A B : List Char) :
    dropTrailingWS (A ++ B) =
      if dropTrailingWS B = [] then dropTrailingWS A else A ++ dropTrailingWS B := by
  induction A with
  | nil => by_cases h : dropTrailingWS B = [] <;> simp [h, dropTrailingWS]
  | cons a A ih =>
    by_cases hB : dropTrailingWS B = []
    · rw [if_pos hB]
      rw [if_pos hB] at ih
      simp only [List.cons_append]
      rw [dropTrailingWS, ih]
      rfl
    · rw [if_neg hB]
      rw [if_neg hB] at ih
      simp only [List.cons_append]
      rw [dropTrailingWS, ih]
      cases hAB : A ++ dropTrailingWS B with
      | nil =>
        exact absurd (List.append_eq_nil.mp hAB).2 hB
      | cons y ys => simp [hAB]

/-- dropTrailingWS keeps a list ending in a non-whitespace character. -/
theorem dtw_ends (A : List Char) (x : Char) (hx : isWS x = false) :
    dropTrailingWS (A ++ [x]) = A ++ [x] := by
  induction A with
  | nil => simp [dropTrailingWS, hx]
  | cons a A ih =>
    simp only [List.cons_append]
    rw [dropTrailingWS, ih]
    cases hAx : A ++ [x] with
    | nil => exact absurd hAx (by simp)
    | cons y ys => simp [hAx]

/-- A list is its dropTrailingWS prefix plus trailing whitespace. -/
theorem dtw_prefix (l : List Char) :
    ∃ b, l = dropTrailingWS l ++ b ∧ ∀ x ∈ b, isWS x = true := by
  induction l with
  | nil => exact ⟨[], rfl, by simp⟩
  | cons c r ih =>
    obtain ⟨b, hb, hws⟩ := ih
    cases hr : dropTrailingWS r with
    | nil =>
      by_cases hc : isWS c
      · refine ⟨c :: r, by simp [dropTrailingWS, hr, hc], ?_⟩
        intro x hx
        rcases List.mem_cons.mp hx with h | h
        · rw [h]; exact hc
        · rw [hr] at hb
          simp only [List.nil_append] at hb
          exact hws x (hb ▸ h)
      · refine ⟨b, ?_, hws⟩
        rw [dropTrailingWS, hr]
        simp only [hc, Bool.false_eq_true, if_neg, List.cons_append,
          List.nil_append]
        rw [hr] at hb
        simp only [List.nil_append] at hb
        simpa [hc] using congrArg (c :: ·) hb
    | cons y ys =>
      refine ⟨b, ?_, hws⟩
      have hcons : dropTrailingWS (c :: r) = c :: (y :: ys) := by
        rw [dropTrailingWS, hr]
      rw [hcons]
      rw [hr] at hb
      simpa using congrArg (c :: ·) hb

/-- dropTrailingWS is empty or ends in a non-whitespace character. -/
theorem dtw_last_not_ws (l : List Char) :
    dropTrailingWS l = [] ∨
      ∃ a x, dropTrailingWS l = a ++ [x] ∧ isWS x = false := by
  induction l with
  | nil => exact Or.inl rfl
  | cons c r ih =>
    cases hr : dropTrailingWS r with
    | nil =>
      by_cases hc : isWS c
      · left; simp [dropTrailingWS, hr, hc]
      · right
        refine ⟨[], c, ?_, by simpa using hc⟩
        simp [dropTrailingWS, hr, hc]
    | cons y ys =>
      right
      rcases ih with h0 | ⟨a, x, ha, hx⟩
      · rw [h0] at hr; simp at hr
      · refine ⟨c :: a, x, ?_, hx⟩
        have hax : a ++ [x] = y :: ys := by rw [← ha, hr]
        have h1 : dropTrailingWS (c :: r) = c :: (y :: ys) := by
          rw [dropTrailingWS, hr]
        rw [h1, ← hax]
        rfl

/-- dropTrailingWS preserves the head when nonempty. -/
theorem dtw_head (l : List Char) (x : Char) (r1 : List Char)
    (h : dropTrailingWS l = x :: r1) : ∃ t, l = x :: t := by
  cases l with
  | nil => simp [dropTrailingWS] at h
  | cons c r =>
    refine ⟨r, ?_⟩
    rw [dropTrailingWS] at h
    cases hr : dropTrailingWS r with
    | nil =>
      rw [hr] at h
      by_cases hc : isWS c
      · simp [hc] at h
      · simp [hc] at h
        rw [h.1]
    | cons y ys =>
      rw [hr] at h
      exact congrArg (· :: r) (List.cons_eq_cons.mp h).1

/-- A newline-free list splits into a single line. -/
theorem splitLines_no_nl (l : List Char) (h : '\n' ∉ l) : splitLinesL l = [l] := by
  induction l with
  | nil => rfl
  | cons c r ih =>
    have hc : ¬ c = '\n' := fun e => h (e ▸ List.mem_cons_self _ _)
    have hr : '\n' ∉ r := fun e => h (List.mem_cons_of_mem _ e)
    rw [splitLinesL.eq_def]
    split
    · simp_all
    · simp_all
    · rename_i c1 r1 hne hcr
      obtain ⟨h1, h2⟩ := List.cons_eq_cons.mp hcr
      subst h1; subst h2
      rw [ih hr]

/-- Substring absence carries to the tail. -/
theorem containsSub_tail_false (c : Char) (r pat : List Char)
    (h : containsSub (c :: r) pat = false) : containsSub r pat = false := by
  rw [containsSub] at h
  exact (Bool.or_eq_false_iff.mp h).2

/-- Substring absence in a whole carries to its right part. -/
theorem containsSub_right_false (a b pat : List Char)
    (h : containsSub (a ++ b) pat = false) : containsSub b pat = false := by
  cases hb : containsSub b pat with
  | false => rfl
  | true => rw [containsSub_append_right a b pat hb] at h; simp at h

/-- Substring absence in a whole carries to a middle factor. -/
theorem containsSub_middle_false (a m b pat : List Char)
    (h : containsSub (a ++ m ++ b) pat = false) : containsSub m pat = false := by
  cases hm : containsSub m pat with
  | false => rfl
  | true => rw [containsSub_middle a m b pat hm] at h; simp at h

/-- A member yields a one-character substring. -/
theorem containsSub_of_mem (x : Char) (l : List Char) (h : x ∈ l) :
    containsSub l [x] = true := by
  induction l with
  | nil => simp at h
  | cons c r ih =>
    rcases List.mem_cons.mp h with h1 | h1
    · rw [containsSub]
      have : startsWithL (c :: r) [x] = true := by
        simp [startsWithL, h1.symm]
      simp [this]
    · rw [containsSub]
      simp [ih h1]

/-- A prefix occurrence is an occurrence. -/
theorem containsSub_of_startsWith (l pat : List Char)
    (h : startsWithL l pat = true) : containsSub l pat = true := by
  cases l with
  | nil =>
    cases pat with
    | nil => rfl
    | cons p q => simp [startsWithL] at h
  | cons c r =>
    rw [containsSub]
    simp [h]

/-- The arrow matcher fails on an arrow-free scrutinee. -/
theorem arrowStart_blocked (w : List Char)
    (h1 : containsSub w "→".data = false)
    (h2 : containsSub w "->".data = false) :
    arrowStart w = none := by
  rw [arrowStart.eq_def]
  split
  · rename_i r
    exfalso
    have : containsSub ('→' :: r) "→".data = true := by
      simpa using containsSub_of_mem '→' ('→' :: r) (List.mem_cons_self _ _)
    rw [this] at h1
    simp at h1
  · rename_i r
    exfalso
    have : containsSub ('-' :: '>' :: r) "->".data = true := by
      apply containsSub_of_startsWith
      simp [startsWithL]
    rw [this] at h2
    simp at h2
  · rfl

/-- restMatch fails on an arrow-free suffix. -/
theorem restMatch_arrowfree (w : List Char)
    (h1 : containsSub w "→".data = false)
    (h2 : containsSub w "->".data = false) :
    restMatch w = none := by
  unfold restMatch
  apply arrowStart_blocked
  · apply containsSub_right_false (w.takeWhile isWS)
    rw [List.takeWhile_append_dropWhile]
    exact h1
  · apply containsSub_right_false (w.takeWhile isWS)
    rw [List.takeWhile_append_dropWhile]
    exact h2

/-- The lazy-group search fails on an arrow-free input. -/
theorem splitAtArrow_arrowfree (w : List Char)
    (h1 : containsSub w "→".data = false)
    (h2 : containsSub w "->".data = false) :
    splitAtArrow w = none := by
  induction w with
  | nil => rfl
  | cons c r ih =>
    have h1r := containsSub_tail_false c r _ h1
    have h2r := containsSub_tail_false c r _ h2
    rw [splitAtArrow]
    rw [restMatch_arrowfree r h1r h2r, ih h1r h2r]

/-- restMatch fails on a suffix beginning inside arrow-free text that
still carries a non-whitespace character, followed by whitespace. -/
theorem restMatch_blocked (va : List Char) (vx : Char) (R : List Char)
    (hvx : isWS vx = false)
    (h1 : containsSub (va ++ [vx]) "→".data = false)
    (h2 : containsSub (va ++ [vx]) "->".data = false)
    (hR : R = [] ∨ ∃ rh rt, R = rh :: rt ∧ isWS rh = true) :
    restMatch ((va ++ [vx]) ++ R) = none := by
  have hd : ¬ (va ++ [vx]).dropWhile isWS = [] := by
    rw [dropWhile_append_char]
    by_cases hva : va.dropWhile isWS = []
    · simp [hva, List.dropWhile_cons, hvx]
    · simp [hva]
  unfold restMatch
  rw [dropWhile_append_char, if_neg hd]
  obtain ⟨dh, dt, hdeq⟩ : ∃ dh dt, (va ++ [vx]).dropWhile isWS = dh :: dt := by
    cases hcase : (va ++ [vx]).dropWhile isWS with
    | nil => exact absurd hcase hd
    | cons a b => exact ⟨a, b, rfl⟩
  have hds1 : containsSub (dh :: dt) "→".data = false := by
    rw [← hdeq]
    apply containsSub_right_false ((va ++ [vx]).takeWhile isWS)
    rw [List.takeWhile_append_dropWhile]
    exact h1
  have hds2 : containsSub (dh :: dt) "->".data = false := by
    rw [← hdeq]
    apply containsSub_right_false ((va ++ [vx]).takeWhile isWS)
    rw [List.takeWhile_append_dropWhile]
    exact h2
  rw [hdeq]
  simp only [List.cons_append]
  rw [arrowStart.eq_def]
  split
  · rename_i r heq
    exfalso
    have hdh : dh = '→' := (List.cons_eq_cons.mp heq).1
    have : containsSub (dh :: dt) "→".data = true := by
      simpa [hdh] using containsSub_of_mem '→' ('→' :: dt) (List.mem_cons_self _ _)
    rw [this] at hds1
    simp at hds1
  · rename_i r heq
    exfalso
    have hdh : dh = '-' := (List.cons_eq_cons.mp heq).1
    have htl : dt ++ R = '>' :: r := (List.cons_eq_cons.mp heq).2
    cases dt with
    | nil =>
      simp only [List.nil_append] at htl
      rcases hR with hnil | ⟨rh, rt, hReq, hrh⟩
      · rw [hnil] at htl; simp at htl
      · rw [hReq] at htl
        have : rh = '>' := (List.cons_eq_cons.mp htl).1
        rw [this] at hrh
        exact absurd hrh (by decide)
    | cons d1 d2 =>
      simp only [List.cons_append] at htl
      have hd1 : d1 = '>' := (List.cons_eq_cons.mp htl).1
      have : containsSub (dh :: d1 :: d2) "->".data = true := by
        apply containsSub_of_startsWith
        simp [startsWithL, hdh, hd1]
      rw [this] at hds2
      simp at hds2
  · rfl

/-- After a whitespace run, an arrow followed by a space, all-whitespace
text and a trimmed outcome, restMatch returns exactly the outcome. -/
theorem restMatch_hits (W1 oa : List Char) (x : Char) (r : List Char)
    (hW1 : ∀ y ∈ W1, isWS y = true) (hoa : ∀ y ∈ oa, isWS y = true)
    (hx : isWS x = false) :
    restMatch (W1 ++ '→' :: ' ' :: (oa ++ (x :: r))) = some (x :: r) ∧
      restMatch (W1 ++ '-' :: '>' :: ' ' :: (oa ++ (x :: r))) = some (x :: r) := by
  have hdW1 : W1.dropWhile isWS = [] := List.dropWhile_eq_nil_iff.mpr hW1
  have htail : afterArrow (' ' :: (oa ++ (x :: r))) = some (x :: r) := by
    have h0 : afterArrow (' ' :: (oa ++ (x :: r))) =
        tailGroup (' ' :: (oa ++ (x :: r))) := rfl
    rw [h0]
    have h1 : tailGroup (' ' :: (oa ++ (x :: r))) =
        some ((' ' :: (oa ++ (x :: r))).drop
          (min ((' ' :: (oa ++ (x :: r))).takeWhile isWS).length
            ((' ' :: (oa ++ (x :: r))).length - 1))) := rfl
    rw [h1]
    have htw : (' ' :: (oa ++ (x :: r))).takeWhile isWS = ' ' :: oa := by
      rw [List.takeWhile_cons, if_pos (by decide)]
      rw [takeWhile_append_of_head_false isWS oa x r hoa hx]
    rw [htw]
    have hlen : (' ' :: (oa ++ (x :: r))).length - 1 =
        oa.length + (r.length + 1) := by
      simp [List.length_cons, List.length_append]
    have hmin : min (' ' :: oa).length ((' ' :: (oa ++ (x :: r))).length - 1) =
        oa.length + 1 := by
      rw [hlen]
      simp only [List.length_cons]
      omega
    rw [hmin]
    have hdrop : (' ' :: (oa ++ (x :: r))).drop (oa.length + 1) = x :: r := by
      rw [List.drop_succ_cons]
      exact List.drop_left oa (x :: r)
    rw [hdrop]
  constructor
  · unfold restMatch
    rw [dropWhile_append_char, if_pos hdW1]
    rw [List.dropWhile_cons, if_neg (by decide)]
    exact htail
  · unfold restMatch
    rw [dropWhile_append_char, if_pos hdW1]
    rw [List.dropWhile_cons, if_neg (by decide)]
    rw [show arrowStart ('-' :: '>' :: ' ' :: (oa ++ (x :: r))) =
      afterArrow (' ' :: (oa ++ (x :: r))) from rfl]
    exact htail

/-- The lazy-group search splits exactly at the trimmed case text. -/
theorem splitAtArrow_pos (va : List Char) (vx : Char) (R g : List Char)
    (hvx : isWS vx = false)
    (h1 : containsSub (va ++ [vx]) "→".data = false)
    (h2 : containsSub (va ++ [vx]) "->".data = false)
    (hR : restMatch R = some g)
    (hRhead : R = [] ∨ ∃ rh rt, R = rh :: rt ∧ isWS rh = true) :
    splitAtArrow ((va ++ [vx]) ++ R) = some (va ++ [vx], g) := by
  induction va with
  | nil =>
    simp only [List.nil_append, List.cons_append]
    rw [splitAtArrow, hR]
  | cons a va ih =>
    have h1t : containsSub (va ++ [vx]) "→".data = false :=
      containsSub_tail_false a _ _ (by simpa using h1)
    have h2t : containsSub (va ++ [vx]) "->".data = false :=
      containsSub_tail_false a _ _ (by simpa using h2)
    have hbl : restMatch ((va ++ [vx]) ++ R) = none :=
      restMatch_blocked va vx R hvx h1t h2t hRhead
    have ihh := ih h1t h2t
    show splitAtArrow (a :: ((va ++ [vx]) ++ R)) = _
    rw [splitAtArrow, hbl, ihh]
    rfl

/-- The lazy-group search fails over a whitespace run followed by
arrow-free text. -/
theorem splitAtArrow_ws_prefix (W : List Char) (x : Char) (r : List Char)
    (hW : ∀ y ∈ W, isWS y = true) (hx : isWS x = false)
    (h1 : containsSub (x :: r) "→".data = false)
    (h2 : containsSub (x :: r) "->".data = false) :
    splitAtArrow (W ++ (x :: r)) = none := by
  induction W with
  | nil => simpa using splitAtArrow_arrowfree (x :: r) h1 h2
  | cons a W ih =>
    have hWt : ∀ y ∈ W, isWS y = true := fun y hy => hW y (List.mem_cons_of_mem _ hy)
    rw [List.cons_append, splitAtArrow]
    have hrm : restMatch (W ++ (x :: r)) = none := by
      unfold restMatch
      rw [dropWhile_append_char, if_pos (List.dropWhile_eq_nil_iff.mpr hWt)]
      rw [List.dropWhile_cons, if_neg (by simp [hx])]
      exact arrowStart_blocked (x :: r) h1 h2
    rw [hrm, ih hWt]

/-- Stripping keeps a block with non-whitespace head and tail followed by
trailing whitespace. -/
theorem trimL_keep (h : Char) (t : List Char) (x : Char) (B : List Char)
    (hh : isWS h = false) (hx : isWS x = false)
    (hB : ∀ b ∈ B, isWS b = true) :
    trimL (((h :: t) ++ [x]) ++ B) = (h :: t) ++ [x] := by
  unfold trimL
  have hdw : (((h :: t) ++ [x]) ++ B).dropWhile isWS = ((h :: t) ++ [x]) ++ B := by
    simp [List.dropWhile_cons, hh]
  rw [hdw, dtw_append, if_pos (dtw_all_ws B hB)]
  exact dtw_ends _ _ hx

/-- Stripping fixes a list with non-whitespace head and last characters. -/
theorem trimL_fix (l : List Char)
    (hh : ∃ h t, l = h :: t ∧ isWS h = false)
    (hl : ∃ a x, l = a ++ [x] ∧ isWS x = false) :
    trimL l = l := by
  obtain ⟨h, t, rfl, hhw⟩ := hh
  obtain ⟨a, x, he, hx⟩ := hl
  unfold trimL
  rw [List.dropWhile_cons, if_neg (by simp [hhw])]
  rw [he]
  exact dtw_ends _ _ hx

/-- The lazy-group search fails over the unicode arrow head of the
canonical separator. -/
theorem splitAtArrow_uni_none (oa : List Char) (x : Char) (r : List Char)
    (hoa : ∀ y ∈ oa, isWS y = true) (hx : isWS x = false)
    (ho1 : containsSub (x :: r) "→".data = false)
    (ho2 : containsSub (x :: r) "->".data = false) :
    splitAtArrow ('→' :: (' ' :: (oa ++ (x :: r)))) = none := by
  have hrm : restMatch (' ' :: (oa ++ (x :: r))) = none := by
    unfold restMatch
    rw [List.dropWhile_cons, if_pos (by decide)]
    rw [dropWhile_append_char, if_pos (List.dropWhile_eq_nil_iff.mpr hoa)]
    rw [List.dropWhile_cons, if_neg (by simp [hx])]
    exact arrowStart_blocked _ ho1 ho2
  have hsp : splitAtArrow (' ' :: (oa ++ (x :: r))) = none := by
    have hsh : (' ' :: (oa ++ (x :: r))) = ((' ' :: oa) ++ (x :: r)) := by simp
    rw [hsh]
    refine splitAtArrow_ws_prefix (' ' :: oa) x r ?_ hx ho1 ho2
    intro y hy
    rcases List.mem_cons.mp hy with h | h
    · rw [h]; decide
    · exact hoa y h
  rw [splitAtArrow, hrm, hsp]

/-- The lazy-group search fails over the ascii arrow head of the
canonical separator. -/
theorem splitAtArrow_ascii_none (oa : List Char) (x : Char) (r : List Char)
    (hoa : ∀ y ∈ oa, isWS y = true) (hx : isWS x = false)
    (ho1 : containsSub (x :: r) "→".data = false)
    (ho2 : containsSub (x :: r) "->".data = false) :
    splitAtArrow ('-' :: '>' :: (' ' :: (oa ++ (x :: r)))) = none := by
  have hrm : restMatch (' ' :: (oa ++ (x :: r))) = none := by
    unfold restMatch
    rw [List.dropWhile_cons, if_pos (by decide)]
    rw [dropWhile_append_char, if_pos (List.dropWhile_eq_nil_iff.mpr hoa)]
    rw [List.dropWhile_cons, if_neg (by simp [hx])]
    exact arrowStart_blocked _ ho1 ho2
  have hsp : splitAtArrow (' ' :: (oa ++ (x :: r))) = none := by
    have hsh : (' ' :: (oa ++ (x :: r))) = ((' ' :: oa) ++ (x :: r)) := by simp
    rw [hsh]
    refine splitAtArrow_ws_prefix (' ' :: oa) x r ?_ hx ho1 ho2
    intro y hy
    rcases List.mem_cons.mp hy with h | h
    · rw [h]; decide
    · exact hoa y h
  have hrm1 : restMatch ('>' :: (' ' :: (oa ++ (x :: r)))) = none := by
    unfold restMatch
    rw [List.dropWhile_cons, if_neg (by decide)]
    rfl
  rw [splitAtArrow, hrm1]
  rw [splitAtArrow, hrm, hsp]

/-- Reduction of edgeCaseOfLine once the stripped line is known to start
with a dash. -/
theorem edgeCaseOfLine_cons (line rest : List Char) (h : trimL line = '-' :: rest) :
    edgeCaseOfLine line =
      (match matchEdge (' ' :: trimL rest) with
       | some (g1, g2) => some (trimL g1, trimL g2)
       | none => none) := by
  unfold edgeCaseOfLine
  rw [h]
  rfl

/-- Core computation: the edge-case matcher on a canonical bullet line
with an arbitrary arrow token splits at the trimmed case and trimmed
outcome. -/
theorem edge_line (c o arrow : List Char)
    (hc1 : containsSub c "→".data = false)
    (hc2 : containsSub c "->".data = false)
    (harrH : ∃ ah at2, arrow = ah :: at2 ∧ isWS ah = false)
    (hoth : ∃ x t, trimL o = x :: t ∧ isWS x = false)
    (hotl : ∃ a x, trimL o = a ++ [x] ∧ isWS x = false)
    (H1 : ∀ W1, (∀ y ∈ W1, isWS y = true) →
        restMatch (W1 ++ (arrow ++ (' ' :: (o.takeWhile isWS ++ trimL o)))) =
          some (trimL o))
    (H3 : splitAtArrow (arrow ++ (' ' :: (o.takeWhile isWS ++ trimL o))) = none) :
    edgeCaseOfLine ('-' :: ' ' :: (c ++ (' ' :: (arrow ++ (' ' :: o))))) =
      some (trimL c, trimL o) := by
  obtain ⟨ah, at2, harw, hahw⟩ := harrH
  subst harw
  obtain ⟨ob, hodsplit, hob⟩ := dtw_prefix (o.dropWhile isWS)
  have hotdef : trimL o = dropTrailingWS (o.dropWhile isWS) := rfl
  have hoaw : ∀ y ∈ o.takeWhile isWS, isWS y = true :=
    fun y hy => List.mem_takeWhile_imp hy
  obtain ⟨ota, ox, hotlast, hoxw⟩ := hotl
  have ho_eq : o = o.takeWhile isWS ++ ((ota ++ [ox]) ++ ob) := by
    conv_lhs => rw [← List.takeWhile_append_dropWhile (p := isWS) (l := o)]
    rw [hodsplit, ← hotdef, hotlast]
  have hLshape : ('-' :: ' ' :: (c ++ (' ' :: ((ah :: at2) ++ (' ' :: o))))) =
      (('-' :: ' ' :: (c ++ (' ' :: ((ah :: at2) ++
        (' ' :: (o.takeWhile isWS ++ ota)))))) ++ [ox]) ++ ob := by
    conv_lhs => rw [ho_eq]
    simp [List.append_assoc]
  have htrimLine : trimL ('-' :: ' ' :: (c ++ (' ' :: ((ah :: at2) ++ (' ' :: o))))) =
      '-' :: (' ' :: (c ++ (' ' :: ((ah :: at2) ++
        (' ' :: (o.takeWhile isWS ++ (ota ++ [ox]))))))) := by
    rw [hLshape]
    rw [trimL_keep '-'
      (' ' :: (c ++ (' ' :: ((ah :: at2) ++ (' ' :: (o.takeWhile isWS ++ ota))))))
      ox ob (by decide) hoxw hob]
    simp [List.append_assoc]
  rw [edgeCaseOfLine_cons _ _ htrimLine]
  have hXeq : (' ' :: (o.takeWhile isWS ++ (ota ++ [ox]))) =
      (' ' :: (o.takeWhile isWS ++ trimL o)) := by
    rw [hotlast]
  cases hcd : c.dropWhile isWS with
  | nil =>
    have hctc : trimL c = [] := by
      unfold trimL
      rw [hcd]
      rfl
    have hTR : trimL (' ' :: (c ++ (' ' :: ((ah :: at2) ++
        (' ' :: (o.takeWhile isWS ++ (ota ++ [ox]))))))) =
        (ah :: at2) ++ (' ' :: (o.takeWhile isWS ++ (ota ++ [ox]))) := by
      unfold trimL
      rw [List.dropWhile_cons, if_pos (by decide)]
      rw [dropWhile_append_char, if_pos hcd]
      rw [List.dropWhile_cons, if_pos (by decide)]
      rw [List.cons_append, List.dropWhile_cons, if_neg (by simp [hahw])]
      have hsh : (ah :: (at2 ++ (' ' :: (o.takeWhile isWS ++ (ota ++ [ox]))))) =
          ((ah :: (at2 ++ (' ' :: (o.takeWhile isWS ++ ota)))) ++ [ox]) := by
        simp [List.append_assoc]
      rw [hsh, dtw_ends _ _ hoxw, ← hsh]
    rw [hTR]
    simp only [matchEdge]
    have hbody : (' ' :: ((ah :: at2) ++
        (' ' :: (o.takeWhile isWS ++ (ota ++ [ox]))))).dropWhile isWS =
        (ah :: at2) ++ (' ' :: (o.takeWhile isWS ++ (ota ++ [ox]))) := by
      rw [List.dropWhile_cons, if_pos (by decide)]
      rw [List.cons_append, List.dropWhile_cons, if_neg (by simp [hahw])]
    rw [hbody]
    have hsp : splitAtArrow ((ah :: at2) ++
        (' ' :: (o.takeWhile isWS ++ (ota ++ [ox])))) = none := by
      rw [hXeq]
      exact H3
    rw [hsp]
    have htw : (' ' :: ((ah :: at2) ++
        (' ' :: (o.takeWhile isWS ++ (ota ++ [ox]))))).takeWhile isWS = [' '] := by
      rw [List.takeWhile_cons, if_pos (by decide)]
      rw [List.cons_append, List.takeWhile_cons, if_neg (by simp [hahw])]
    rw [htw]
    have hrm : restMatch ((ah :: at2) ++
        (' ' :: (o.takeWhile isWS ++ (ota ++ [ox])))) = some (trimL o) := by
      rw [hXeq]
      have := H1 [] (by simp)
      simpa using this
    rw [hrm]
    show some (trimL [' '], trimL (trimL o)) = _
    rw [trimL_fix (trimL o) hoth ⟨ota, ox, hotlast, hoxw⟩]
    rw [hctc]
    rfl
  | cons ch cdt =>
    obtain ⟨cb, hcdsplit, hcb⟩ := dtw_prefix (c.dropWhile isWS)
    have hctdef : trimL c = dropTrailingWS (c.dropWhile isWS) := rfl
    have hchw : isWS ch = false := dropWhile_head_false isWS c ch cdt hcd
    have hctne : ¬ trimL c = [] := by
      intro h0
      rw [hctdef] at h0
      rw [h0, List.nil_append] at hcdsplit
      have hmem : ch ∈ cb := by
        rw [← hcdsplit, hcd]
        exact List.mem_cons_self _ _
      rw [hcb ch hmem] at hchw
      simp at hchw
    have hcth : ∃ h t, trimL c = h :: t ∧ isWS h = false := by
      cases hct : trimL c with
      | nil => exact absurd hct hctne
      | cons x1 t1 =>
        refine ⟨x1, t1, rfl, ?_⟩
        rw [hctdef] at hct
        obtain ⟨t2, hcd2⟩ := dtw_head _ x1 t1 hct
        exact dropWhile_head_false isWS c x1 t2 hcd2
    have hctlEx : ∃ a x, trimL c = a ++ [x] ∧ isWS x = false := by
      rcases dtw_last_not_ws (c.dropWhile isWS) with h0 | h
      · exact absurd (hctdef.trans h0) hctne
      · rw [← hctdef] at h
        exact h
    obtain ⟨cta, cx, hctlast, hcxw⟩ := hctlEx
    have hcsh : c = (c.takeWhile isWS ++ trimL c) ++ cb := by
      conv_lhs => rw [← List.takeWhile_append_dropWhile (p := isWS) (l := c)]
      rw [hcdsplit, ← hctdef]
      simp [List.append_assoc]
    have hct1 : containsSub (trimL c) "→".data = false := by
      apply containsSub_middle_false (c.takeWhile isWS) (trimL c) cb
      rw [← hcsh]
      exact hc1
    have hct2 : containsSub (trimL c) "->".data = false := by
      apply containsSub_middle_false (c.takeWhile isWS) (trimL c) cb
      rw [← hcsh]
      exact hc2
    have hcdne : ¬ c.dropWhile isWS = [] := by
      rw [hcd]
      simp
    have hTR : trimL (' ' :: (c ++ (' ' :: ((ah :: at2) ++
        (' ' :: (o.takeWhile isWS ++ (ota ++ [ox]))))))) =
        c.dropWhile isWS ++ (' ' :: ((ah :: at2) ++
          (' ' :: (o.takeWhile isWS ++ (ota ++ [ox]))))) := by
      unfold trimL
      rw [List.dropWhile_cons, if_pos (by decide)]
      rw [dropWhile_append_char, if_neg hcdne]
      have hsh : (c.dropWhile isWS ++ (' ' :: ((ah :: at2) ++
          (' ' :: (o.takeWhile isWS ++ (ota ++ [ox])))))) =
          ((c.dropWhile isWS ++ (' ' :: ((ah :: at2) ++
            (' ' :: (o.takeWhile isWS ++ ota))))) ++ [ox]) := by
        simp [List.append_assoc]
      rw [hsh, dtw_ends _ _ hoxw, ← hsh]
    rw [hTR]
    simp only [matchEdge]
    have hbody : (' ' :: (c.dropWhile isWS ++ (' ' :: ((ah :: at2) ++
        (' ' :: (o.takeWhile isWS ++ (ota ++ [ox]))))))).dropWhile isWS =
        c.dropWhile isWS ++ (' ' :: ((ah :: at2) ++
          (' ' :: (o.takeWhile isWS ++ (ota ++ [ox]))))) := by
      rw [List.dropWhile_cons, if_pos (by decide)]
      rw [dropWhile_append_char, hcd, List.dropWhile_cons,
        if_neg (by simp [hchw])]
      simp [hchw]
    rw [hbody]
    have hsplit : splitAtArrow (c.dropWhile isWS ++ (' ' :: ((ah :: at2) ++
        (' ' :: (o.takeWhile isWS ++ (ota ++ [ox])))))) =
        some (trimL c, trimL o) := by
      have hsh2 : c.dropWhile isWS ++ (' ' :: ((ah :: at2) ++
          (' ' :: (o.takeWhile isWS ++ (ota ++ [ox]))))) =
          (cta ++ [cx]) ++ (cb ++ (' ' :: ((ah :: at2) ++
            (' ' :: (o.takeWhile isWS ++ (ota ++ [ox])))))) := by
        conv_lhs => rw [hcdsplit, ← hctdef, hctlast]
        simp [List.append_assoc]
      rw [hsh2]
      have hR : restMatch (cb ++ (' ' :: ((ah :: at2) ++
          (' ' :: (o.takeWhile isWS ++ (ota ++ [ox])))))) = some (trimL o) := by
        have hsh3 : cb ++ (' ' :: ((ah :: at2) ++
            (' ' :: (o.takeWhile isWS ++ (ota ++ [ox]))))) =
            (cb ++ [' ']) ++ ((ah :: at2) ++
              (' ' :: (o.takeWhile isWS ++ trimL o))) := by
          rw [hotlast]
          simp [List.append_assoc]
        rw [hsh3]
        refine H1 (cb ++ [' ']) ?_
        intro y hy
        rcases List.mem_append.mp hy with h | h
        · exact hcb y h
        · simp at h
          rw [h]
          decide
      have hRhead : (cb ++ (' ' :: ((ah :: at2) ++
          (' ' :: (o.takeWhile isWS ++ (ota ++ [ox])))))) = [] ∨
          ∃ rh rt, (cb ++ (' ' :: ((ah :: at2) ++
            (' ' :: (o.takeWhile isWS ++ (ota ++ [ox])))))) = rh :: rt ∧
            isWS rh = true := by
        right
        cases hcbc : cb with
        | nil =>
          subst hcbc
          simp only [List.nil_append]
          exact ⟨' ', _, rfl, by decide⟩
        | cons b0 bs =>
          subst hcbc
          refine ⟨b0, _, rfl, ?_⟩
          exact hcb b0 (List.mem_cons_self _ _)
      have hpos := splitAtArrow_pos cta cx _ (trimL o) hcxw
        (by rw [← hctlast]; exact hct1) (by rw [← hctlast]; exact hct2) hR hRhead
      rw [hpos, ← hctlast]
    rw [hsplit]
    show some (trimL (trimL c), trimL (trimL o)) = _
    rw [trimL_fix (trimL c) hcth ⟨cta, cx, hctlast, hcxw⟩]
    rw [trimL_fix (trimL o) hoth ⟨ota, ox, hotlast, hoxw⟩]

/-- Substring absence carries from a list to its stripped form. -/
theorem trimL_sub_false (u pat : List Char)
    (h : containsSub u pat = false) : containsSub (trimL u) pat = false := by
  have htr : trimL u = dropTrailingWS (u.dropWhile isWS) := rfl
  have hd : containsSub (u.dropWhile isWS) pat = false := by
    apply containsSub_right_false (u.takeWhile isWS)
    rw [List.takeWhile_append_dropWhile]
    exact h
  obtain ⟨b, hb, _⟩ := dtw_prefix (u.dropWhile isWS)
  cases hc : containsSub (trimL u) pat with
  | false => rfl
  | true =>
    rw [htr] at hc
    rw [hb, containsSub_append_left _ _ _ hc] at hd
    simp at hd

/-- Substring absence extends over a fresh head that does not start the
pattern. -/
theorem containsSub_cons_false (c : Char) (r pat : List Char)
    (hh : startsWithL (c :: r) pat = false)
    (ht : containsSub r pat = false) :
    containsSub (c :: r) pat = false := by
  rw [containsSub, hh, ht]
  rfl

/-- A line with no arrow token yields no edge-case entry. -/
theorem edgeCaseOfLine_none (u : List Char)
    (h1 : containsSub u "→".data = false)
    (h2 : containsSub u "->".data = false) :
    edgeCaseOfLine u = none := by
  rw [edgeCaseOfLine.eq_def]
  split
  · rename_i rest heq
    have htr1 := trimL_sub_false u _ h1
    have htr2 := trimL_sub_false u _ h2
    rw [heq] at htr1 htr2
    have ht1 : containsSub rest "→".data = false :=
      containsSub_tail_false _ _ _ htr1
    have ht2 : containsSub rest "->".data = false :=
      containsSub_tail_false _ _ _ htr2
    have htt1 : containsSub (trimL rest) "→".data = false :=
      trimL_sub_false _ _ ht1
    have htt2 : containsSub (trimL rest) "->".data = false :=
      trimL_sub_false _ _ ht2
    have hs1 : containsSub (' ' :: trimL rest) "→".data = false :=
      containsSub_cons_false _ _ _ (by simp [startsWithL]) htt1
    have hs2 : containsSub (' ' :: trimL rest) "->".data = false :=
      containsSub_cons_false _ _ _ (by simp [startsWithL]) htt2
    have hbody1 : containsSub ((' ' :: trimL rest).dropWhile isWS)
        "→".data = false := by
      apply containsSub_right_false ((' ' :: trimL rest).takeWhile isWS)
      rw [List.takeWhile_append_dropWhile]
      exact hs1
    have hbody2 : containsSub ((' ' :: trimL rest).dropWhile isWS)
        "->".data = false := by
      apply containsSub_right_false ((' ' :: trimL rest).takeWhile isWS)
      rw [List.takeWhile_append_dropWhile]
      exact hs2
    have hsp : splitAtArrow ((' ' :: trimL rest).dropWhile isWS) = none :=
      splitAtArrow_arrowfree _ hbody1 hbody2
    have hrm : restMatch ((' ' :: trimL rest).dropWhile isWS) = none :=
      restMatch_arrowfree _ hbody1 hbody2
    have hme : matchEdge (' ' :: trimL rest) = none := by
      simp only [matchEdge]
      rw [hsp, hrm]
      cases hgl : ((' ' :: trimL rest).takeWhile isWS).getLast? <;> rfl
    rw [hme]
  · rfl

/-- A nonempty newline-free content block reduces extractEdgeCases to the
single-line matcher. -/
theorem extractEdgeCases_single (u : List Char) (hne : u ≠ [])
    (hnl : '\n' ∉ u) :
    extractEdgeCases u =
      (match edgeCaseOfLine u with
       | some (a, b) => [(String.mk a, String.mk b)]
       | none => []) := by
  unfold extractEdgeCases
  rw [if_neg (by simpa [List.isEmpty_iff] using hne)]
  rw [splitLines_no_nl _ hnl]
  simp only [List.foldl]
  cases he : edgeCaseOfLine u with
  | none => rfl
  | some p =>
    cases p with
    | mk a b => rfl

/-- A list with a non-whitespace element strips to a block with
non-whitespace head and last characters. -/
theorem trimL_decomp (l : List Char) (hne : ∃ y ∈ l, isWS y = false) :
    (∃ h t, trimL l = h :: t ∧ isWS h = false) ∧
    (∃ a x, trimL l = a ++ [x] ∧ isWS x = false) := by
  obtain ⟨y, hy, hyw⟩ := hne
  have hdne : l.dropWhile isWS ≠ [] := by
    intro h0
    exact absurd (List.dropWhile_eq_nil_iff.mp h0 y hy) (by simp [hyw])
  obtain ⟨ch, cdt, hcd⟩ : ∃ h t, l.dropWhile isWS = h :: t := by
    cases hc : l.dropWhile isWS with
    | nil => exact absurd hc hdne
    | cons a b => exact ⟨a, b, rfl⟩
  obtain ⟨cb, hcdsplit, hcb⟩ := dtw_prefix (l.dropWhile isWS)
  have hctdef : trimL l = dropTrailingWS (l.dropWhile isWS) := rfl
  have hchw : isWS ch = false := dropWhile_head_false isWS l ch cdt hcd
  have hctne : ¬ trimL l = [] := by
    intro h0
    rw [hctdef] at h0
    rw [h0, List.nil_append] at hcdsplit
    have hmem : ch ∈ cb := by
      rw [← hcdsplit, hcd]
      exact List.mem_cons_self _ _
    rw [hcb ch hmem] at hchw
    simp at hchw
  constructor
  · cases hct : trimL l with
    | nil => exact absurd hct hctne
    | cons x1 t1 =>
      refine ⟨x1, t1, rfl, ?_⟩
      rw [hctdef] at hct
      obtain ⟨t2, hcd2⟩ := dtw_head _ x1 t1 hct
      exact dropWhile_head_false isWS l x1 t2 hcd2
  · rcases dtw_last_not_ws (l.dropWhile isWS) with h0 | h
    · exact absurd (hctdef.trans h0) hctne
    · rw [← hctdef] at h
      exact h

/-- The edge-case matcher accepts a canonical bullet with either arrow
token and returns the trimmed pair. -/
theorem edge_line_both (c o : List Char)
    (hc1 : containsSub c "→".data = false)
    (hc2 : containsSub c "->".data = false)
    (ho1 : containsSub o "→".data = false)
    (ho2 : containsSub o "->".data = false)
    (hone : ∃ y ∈ o, isWS y = false) :
    edgeCaseOfLine ('-' :: ' ' :: (c ++ (' ' :: ('→' :: (' ' :: o))))) =
      some (trimL c, trimL o) ∧
    edgeCaseOfLine ('-' :: ' ' :: (c ++ (' ' :: ('-' :: '>' :: (' ' :: o))))) =
      some (trimL c, trimL o) := by
  have hd := trimL_decomp o hone
  have hoth := hd.1
  have hotl := hd.2
  obtain ⟨x, t, hxt, hxw⟩ := hd.1
  have hoaw : ∀ y ∈ o.takeWhile isWS, isWS y = true :=
    fun y hy => List.mem_takeWhile_imp hy
  have hto1 : containsSub (trimL o) "→".data = false := trimL_sub_false o _ ho1
  have hto2 : containsSub (trimL o) "->".data = false := trimL_sub_false o _ ho2
  rw [hxt] at hto1 hto2
  constructor
  · refine edge_line c o ['→'] hc1 hc2 ⟨'→', [], rfl, by decide⟩ hoth hotl
      ?_ ?_
    · intro W1 hW1
      rw [hxt]
      exact (restMatch_hits W1 (o.takeWhile isWS) x t hW1 hoaw hxw).1
    · rw [hxt]
      exact splitAtArrow_uni_none (o.takeWhile isWS) x t hoaw hxw hto1 hto2
  · refine edge_line c o ['-', '>'] hc1 hc2 ⟨'-', ['>'], rfl, by decide⟩
      hoth hotl ?_ ?_
    · intro W1 hW1
      rw [hxt]
      exact (restMatch_hits W1 (o.takeWhile isWS) x t hW1 hoaw hxw).2
    · rw [hxt]
      exact splitAtArrow_ascii_none (o.takeWhile isWS) x t hoaw hxw hto1 hto2

/-- Claim C9, amended: for every arrow-free newline-free case string c and
arrow-free newline-free outcome string o holding at least one
non-whitespace character, the Edge Cases bullets with the unicode arrow
and with the ascii arrow both parse into the single edge_cases entry
mapping the trimmed case to the trimmed outcome; and an arrow-free
single-line content contributes no entry at all. -/
theorem C9_amended (c o : List Char)
    (hnc : '\n' ∉ c) (hno : '\n' ∉ o)
    (hc1 : containsSub c "→".data = false)
    (hc2 : containsSub c "->".data = false)
    (ho1 : containsSub o "→".data = false)
    (ho2 : containsSub o "->".data = false)
    (hone : ∃ y ∈ o, isWS y = false) :
    extractEdgeCases ('-' :: ' ' :: (c ++ (' ' :: ('→' :: (' ' :: o))))) =
      [(String.mk (trimL c), String.mk (trimL o))] ∧
    extractEdgeCases ('-' :: ' ' :: (c ++ (' ' :: ('-' :: '>' :: (' ' :: o))))) =
      [(String.mk (trimL c), String.mk (trimL o))] ∧
    ∀ u : List Char, containsSub u "→".data = false →
      containsSub u "->".data = false → '\n' ∉ u →
      extractEdgeCases u = [] := by
  have hpair := edge_line_both c o hc1 hc2 ho1 ho2 hone
  have hnl1 : '\n' ∉ ('-' :: ' ' :: (c ++ (' ' :: ('→' :: (' ' :: o))))) := by
    intro h
    simp only [List.mem_cons, List.mem_append] at h
    rcases h with h | h | h | h | h | h | h <;>
      first
        | exact absurd h (by decide)
        | exact hnc h
        | exact hno h
  have hnl2 : '\n' ∉ ('-' :: ' ' :: (c ++ (' ' :: ('-' :: '>' :: (' ' :: o))))) := by
    intro h
    simp only [List.mem_cons, List.mem_append] at h
    rcases h with h | h | h | h | h | h | h | h <;>
      first
        | exact absurd h (by decide)
        | exact hnc h
        | exact hno h
  refine ⟨?_, ?_, ?_⟩
  · rw [extractEdgeCases_single _ (by simp) hnl1, hpair.1]
  · rw [extractEdgeCases_single _ (by simp) hnl2, hpair.2]
  · intro u hu1 hu2 hunl
    cases u with
    | nil => rfl
    | cons c0 r0 =>
      rw [extractEdgeCases_single _ (by simp) hunl,
        edgeCaseOfLine_none _ hu1 hu2]

/-- Claim C9, witness: a concrete case and outcome parse identically with
the unicode and the ascii arrow, and an arrow-free bullet is dropped. -/
theorem C9_witness :
    extractEdgeCases ('-' :: ' ' :: ("Empty input".data ++
        (' ' :: ('→' :: (' ' :: "return empty string".data))))) =
      [(String.mk (trimL "Empty input".data),
        String.mk (trimL "return empty string".data))] ∧
    extractEdgeCases ('-' :: ' ' :: ("Empty input".data ++
        (' ' :: ('-' :: '>' :: (' ' :: "return empty string".data))))) =
      [(String.mk (trimL "Empty input".data),
        String.mk (trimL "return empty string".data))] ∧
    extractEdgeCases "- no arrow here".data = [] := by
  have h := C9_amended "Empty input".data "return empty string".data
    (by decide) (by decide) (by decide) (by decide) (by decide) (by decide)
    ⟨'r', by decide, by decide⟩
  exact ⟨h.1, h.2.1, h.2.2 "- no arrow here".data (by decide) (by decide)
    (by decide)⟩
